import Mathlib

/-!
Verification of the StegoWave WAV16 LSB steganography codec.

Shallow embedding of `src/stego_wave/src/formats/wav.rs` and
`src/stego_wave/src/object.rs`.  16-bit samples are modelled by their bit
patterns as natural numbers below 2^16 (all sample operations in the source
are bitwise, so the i16 sign is irrelevant).  Rust strings are modelled by
their UTF-8 byte lists.  The password-derived `UniqueRandomIndices` stream
(ChaCha8 seeded from a 64-bit hash of the password, rejection sampling
against a used-set) is deterministic for a fixed password; it is modelled
by the list of indices it yields, together with the properties its code
guarantees: distinct indices (the used-set), each below the sample count
(`gen_range(0..sample_len)`), and exactly `sample_len * max_occupancy / 100`
of them (`max_count`).
-/

namespace StegoWave

/-- `StegoError` from `src/stego_wave/src/error.rs` (the `HoundError` payload,
an error value of the external hound crate, is dropped). -/
inductive StegoError where
  | InvalidFile (detail : String)
  | NotEnoughSamples (required : Nat)
  | HoundError
  | IncorrectPassword
  | FailedToReceiveMessage
  | Other (detail : String)
deriving DecidableEq, Repr

instance {ε α : Type} [DecidableEq ε] [DecidableEq α] : DecidableEq (Except ε α) := fun a b =>
  match a, b with
  | .ok x, .ok y =>
    if h : x = y then .isTrue (by rw [h]) else .isFalse (by intro hc; cases hc; exact h rfl)
  | .error x, .error y =>
    if h : x = y then .isTrue (by rw [h]) else .isFalse (by intro hc; cases hc; exact h rfl)
  | .ok _, .error _ => .isFalse (by intro hc; cases hc)
  | .error _, .ok _ => .isFalse (by intro hc; cases hc)

/-- The `WAV16` struct of `formats/wav.rs`: `lsb_deep` plus the two settings
it reads (`self.header()` as UTF-8 bytes and `self.max_occupancy()`). The
builder validates `1 ≤ lsb_deep ≤ 16`; theorems carry that as hypotheses. -/
structure WAV16 where
  lsb_deep : Nat
  header : List Nat
  max_occupancy : Nat

/-- Bit pattern of the i16 complement `!x` of a 16-bit pattern. -/
def not16 (x : Nat) : Nat := (2 ^ 16 - 1) ^^^ x

/-- `WAV16::get_mask`: `let mask: i32 = (1 << lsb_deep) - 1; mask as i16`,
as a 16-bit pattern. -/
def WAV16.get_mask (w : WAV16) : Nat := ((1 <<< w.lsb_deep) - 1) % 2 ^ 16

/-- `WAV16::is_enough_samples` from `formats/wav.rs` lines 63-74. -/
def WAV16.is_enough_samples (w : WAV16) (msg_len samples_len : Nat) :
    Except StegoError Unit :=
  let msg_bits := msg_len * 8
  let total_bits := samples_len * w.lsb_deep * w.max_occupancy / 100
  if msg_bits > total_bits then
    let required_bits := msg_bits * 100 / w.max_occupancy
    let required_samples := required_bits / w.lsb_deep
    .error (.NotEnoughSamples (required_samples + 1))
  else
    .ok ()

/-- The MSB-first bits of one byte:
`(0..8).rev().map(move |shift| (byte >> shift) & 1)`. -/
def byteBits (b : Nat) : List Nat :=
  (List.range 8).reverse.map fun shift => (b >>> shift) &&& 1

/-- The bit stream embedded by `hide_message_binary`:
`header.iter().chain(message).chain(iter::once(&0)).flat_map(bits)`. -/
def payload_bits (header message : List Nat) : List Nat :=
  (((header ++ message) ++ [0]).map byteBits).flatten

/-- The inner `for _ in 0..self.lsb_deep` loop of `hide_message_binary`:
pulls up to `d` bits from the stream into `value` via
`value = (value << 1) | bit`, substituting `0` once the stream is empty
(which is when the source sets `write_full`).  Returns the final `value`
and the remaining stream. -/
def chunk_fill : Nat → Nat → List Nat → Nat × List Nat
  | 0, value, bits => (value, bits)
  | d + 1, value, [] => chunk_fill d ((value <<< 1) ||| 0) []
  | d + 1, value, bit :: rest => chunk_fill d ((value <<< 1) ||| bit) rest

/-- The `'sample: for sample_index in indices_iter` loop of
`hide_message_binary`: for each yielded index, fill a `lsb_deep`-bit chunk
from the message bit stream, store it in the low bits of the sample
(`samples[i] = (samples[i] & mask) | value` with `mask = !get_mask()`),
and break once the stream ran dry during this chunk (`write_full`). -/
def hide_loop (D mask : Nat) : List Nat → List Nat → List Nat → List Nat
  | samples, [], _ => samples
  | samples, sample_index :: rest, bits =>
    let value := (chunk_fill D 0 bits).1
    let samples' :=
      samples.set sample_index ((samples.getD sample_index 0 &&& mask) ||| value)
    if bits.length < D then samples'
    else hide_loop D mask samples' rest (chunk_fill D 0 bits).2

/-- `WAV16::hide_message_binary` (`formats/wav.rs` lines 187-226) over the
index stream `indices` yielded by `UniqueRandomIndices::new(samples.len(),
password, max_occupancy)`.  Returns the Rust result together with the final
state of the `&mut [i16]` buffer (unchanged on error). -/
def WAV16.hide_message_binary (w : WAV16) (samples message indices : List Nat) :
    Except StegoError Unit × List Nat :=
  let total_bytes := w.header.length + message.length + 1
  match w.is_enough_samples total_bytes samples.length with
  | .error e => (.error e, samples)
  | .ok _ =>
    let mask := not16 w.get_mask
    (.ok (), hide_loop w.lsb_deep mask samples indices (payload_bits w.header message))

/-- The bits one visited sample contributes in `ByteIterator::next`
(`object.rs` lines 151-166): `encoded = (samples[i] & mask) as u16`, then
`for shift in (0..lsb_deep).rev()` the bit `(encoded >> shift) & 1`. -/
def WAV16.sample_bits (w : WAV16) (s : Nat) : List Nat :=
  let encoded := s &&& w.get_mask
  (List.range w.lsb_deep).reverse.map fun shift => (encoded >>> shift) &&& 1

/-- The full bit stream a `ByteIterator` over `samples` and `indices` draws
from, in order. -/
def WAV16.read_bits (w : WAV16) (samples indices : List Nat) : List Nat :=
  (indices.map fun i => w.sample_bits (samples.getD i 0)).flatten

/-- Byte assembly of `ByteIterator`: bits are pushed MSB-first into
`current_byte`; a byte is emitted whenever `current_bit` reaches 8; trailing
bits that never complete a byte are discarded. -/
def bits_to_bytes (current_byte current_bit : Nat) : List Nat → List Nat
  | [] => []
  | bit :: rest =>
    let cb := (current_byte <<< 1) ||| bit
    if current_bit + 1 = 8 then cb :: bits_to_bytes 0 0 rest
    else bits_to_bytes cb (current_bit + 1) rest

/-- All bytes the `ByteIterator` over `samples` and `indices` can yield. -/
def WAV16.decoded_bytes (w : WAV16) (samples indices : List Nat) : List Nat :=
  bits_to_bytes 0 0 (w.read_bits samples indices)

/-- `WAV16::validate_header` (`formats/wav.rs` lines 89-118): collect
decoded bytes until `header_bytes.len() == header.len()` (with an empty
header the loop never breaks and collects every byte); succeed with the
rest of the byte stream iff the collected bytes equal the header. -/
def WAV16.validate_header (w : WAV16) (samples indices : List Nat) :
    Except StegoError (List Nat) :=
  let bytes := w.decoded_bytes samples indices
  let header_bytes := if w.header.length = 0 then bytes else bytes.take w.header.length
  if header_bytes = w.header then .ok (bytes.drop w.header.length)
  else .error .IncorrectPassword

/-- The extraction loop of `extract_message_binary`: accumulate bytes until
the first `0` byte; `none` when the stream ends without one. -/
def extract_until_nul : List Nat → Option (List Nat)
  | [] => none
  | b :: rest => if b = 0 then some [] else (extract_until_nul rest).map (b :: ·)

/-- Whether a continuation byte is in `0x80..=0xBF`. -/
def utf8_cont (b : Nat) : Bool := 0x80 ≤ b && b ≤ 0xBF

/-- Modelled from the spec: validity of a byte list as UTF-8, the acceptance
condition of Rust's `String::from_utf8` (std, outside this repository) used
by `extract_message_binary`; `from_utf8(v)` is `Ok` of exactly the bytes `v`
iff `utf8_valid v`, and `unwrap_or_default()` yields `""` otherwise. -/
def utf8_valid : List Nat → Bool
  | [] => true
  | b :: rest =>
    if b ≤ 0x7F then utf8_valid rest
    else
      match rest with
      | [] => false
      | b2 :: rest2 =>
        if 0xC2 ≤ b && b ≤ 0xDF then utf8_cont b2 && utf8_valid rest2
        else
          match rest2 with
          | [] => false
          | b3 :: rest3 =>
            if b = 0xE0 then
              (0xA0 ≤ b2 && b2 ≤ 0xBF) && utf8_cont b3 && utf8_valid rest3
            else if (0xE1 ≤ b && b ≤ 0xEC) || b = 0xEE || b = 0xEF then
              utf8_cont b2 && utf8_cont b3 && utf8_valid rest3
            else if b = 0xED then
              (0x80 ≤ b2 && b2 ≤ 0x9F) && utf8_cont b3 && utf8_valid rest3
            else
              match rest3 with
              | [] => false
              | b4 :: rest4 =>
                if b = 0xF0 then
                  (0x90 ≤ b2 && b2 ≤ 0xBF) && utf8_cont b3 && utf8_cont b4 &&
                    utf8_valid rest4
                else if 0xF1 ≤ b && b ≤ 0xF3 then
                  utf8_cont b2 && utf8_cont b3 && utf8_cont b4 && utf8_valid rest4
                else if b = 0xF4 then
                  (0x80 ≤ b2 && b2 ≤ 0x8F) && utf8_cont b3 && utf8_cont b4 &&
                    utf8_valid rest4
                else false

/-- `WAV16::extract_message_binary` (`formats/wav.rs` lines 276-291) over
the index stream of the password.  The returned string is modelled by its
byte list: `String::from_utf8(result).unwrap_or_default()` is `result`
itself when valid UTF-8 and the empty string otherwise. -/
def WAV16.extract_message_binary (w : WAV16) (samples indices : List Nat) :
    Except StegoError (List Nat) :=
  match w.validate_header samples indices with
  | .error e => .error e
  | .ok rest =>
    match extract_until_nul rest with
    | some result => .ok (if utf8_valid result then result else [])
    | none => .error .FailedToReceiveMessage

/-- One bit step of the byte accumulator in `clear_secret_message_binary`:
`current_byte = (current_byte << 1) | bit; bit_count += 1`, with early
`return Ok(())` (`none`) when a full byte is `0`. -/
def clear_push (current_byte bit_count bit : Nat) : Option (Nat × Nat) :=
  let cb := (current_byte <<< 1) ||| bit
  if bit_count + 1 = 8 then
    if cb = 0 then none else some (0, 0)
  else some (cb, bit_count + 1)

/-- The inner `for shift in (0..lsb_deep).rev()` loop of
`clear_secret_message_binary` over the bits of one sample. -/
def clear_chunk : Nat → Nat → List Nat → Option (Nat × Nat)
  | cb, bc, [] => some (cb, bc)
  | cb, bc, bit :: rest =>
    match clear_push cb bc bit with
    | none => none
    | some (cb', bc') => clear_chunk cb' bc' rest

/-- The `for sample_index in indices_iter` loop of
`clear_secret_message_binary`: read `encoded = samples[i] & mask`, zero the
low bits (`samples[i] &= !mask`), and feed the chunk's bits into the byte
accumulator, returning `Ok` as soon as a full zero byte is seen and
`FailedToReceiveMessage` if the stream is exhausted without one. -/
def clear_loop (w : WAV16) :
    List Nat → List Nat → Nat → Nat → Except StegoError Unit × List Nat
  | samples, [], _, _ => (.error .FailedToReceiveMessage, samples)
  | samples, sample_index :: rest, cb, bc =>
    let samples' :=
      samples.set sample_index (samples.getD sample_index 0 &&& not16 w.get_mask)
    match clear_chunk cb bc (w.sample_bits (samples.getD sample_index 0)) with
    | none => (.ok (), samples')
    | some (cb', bc') => clear_loop w samples' rest cb' bc'

/-- `WAV16::clear_secret_message_binary` (`formats/wav.rs` lines 347-374)
over the index stream of the password (the source validates the header on a
clone of the iterator's initial state and replays the same stream for the
mutation loop).  Returns the Rust result and the final buffer. -/
def WAV16.clear_secret_message_binary (w : WAV16) (samples indices : List Nat) :
    Except StegoError Unit × List Nat :=
  match w.validate_header samples indices with
  | .error e => (.error e, samples)
  | .ok _ => clear_loop w samples indices 0 0

/-- The properties `UniqueRandomIndices::new(N, password, O)` (`object.rs`
lines 59-96) guarantees of its yielded index list: indices are pairwise
distinct (the `used` set), each is below `N` (`gen_range(0..sample_len)`),
and exactly `max_count = N * O / 100` are yielded. -/
def ValidStream (N O : Nat) (indices : List Nat) : Prop :=
  indices.Nodup ∧ (∀ i ∈ indices, i < N) ∧ indices.length = N * O / 100

instance (N O : Nat) (indices : List Nat) : Decidable (ValidStream N O indices) := by
  unfold ValidStream; infer_instance

/-- Number of indices the `hide_message_binary` loop consumes before
stopping, for a bit stream of length `L`, depth `D` and `n` available
indices: all `n` when the stream covers them, else one past the chunk in
which the bits ran out. -/
def hide_steps (D L n : Nat) : Nat :=
  if L < n * D then L / D + 1 else n

/-- Zeroing fold: the cumulative effect of `samples[i] &= !mask` over a
list of visited indices. -/
def zero_low (w : WAV16) (samples : List Nat) (idxs : List Nat) : List Nat :=
  idxs.foldl (fun s i => s.set i (s.getD i 0 &&& not16 w.get_mask)) samples

/-- Index of the first `0` in a byte list. -/
def first_zero : List Nat → Option Nat
  | [] => none
  | b :: rest => if b = 0 then some 0 else (first_zero rest).map (· + 1)

/-- Bit-level scan mirroring the byte accumulator shared by
`clear_secret_message_binary`: the number of bits consumed up to and
including the one completing the first zero byte, `none` if no zero byte
ever completes. -/
def scan_zero : Nat → Nat → List Nat → Option Nat
  | _, _, [] => none
  | cb, bc, bit :: rest =>
    let cb' := (cb <<< 1) ||| bit
    if bc + 1 = 8 then
      if cb' = 0 then some 1 else (scan_zero 0 0 rest).map (· + 1)
    else (scan_zero cb' (bc + 1) rest).map (· + 1)

/-- MSB-first value of a bit list, by the accumulation step
`value = (value << 1) | bit` shared by `hide_message_binary`,
`ByteIterator` and `clear_secret_message_binary`. -/
def bits_val (l : List Nat) : Nat :=
  l.foldl (fun a b => (a <<< 1) ||| b) 0

/-- The WAV container metadata of the hound crate's `WavSpec` that
`formats/wav.rs` consults. -/
structure WavSpec where
  channels : Nat
  sample_rate : Nat
  bits_per_sample : Nat
deriving DecidableEq, Repr

/-- Outcome of the external hound crate parsing a WAV byte buffer, as
`read_samples_from_byte` observes it: `WavReader::new` may fail, reading
the samples as `i16` may fail, or both succeed with a spec and samples
(hound reads files of at most 16 bits per sample into `i16`). -/
inductive HoundParse where
  | failOpen
  | failSamples (spec : WavSpec)
  | ok (spec : WavSpec) (samples : List Nat)

/-- `WAV16::read_samples_from_byte` (`formats/wav.rs` lines 404-414) as a
function of the hound parse outcome for its input bytes: it returns
whatever hound produces, with no `bits_per_sample` inspection. -/
def read_samples_from_byte : HoundParse → Except StegoError (List Nat × WavSpec)
  | .failOpen => .error (.Other ("Error reading WAV"))
  | .failSamples _ => .error (.Other ("Error reading samples"))
  | .ok spec samples => .ok (samples, spec)

/-- `WAV16::validate_file` (`formats/wav.rs` lines 394-402) as a function
of the hound open outcome for its input path: fails with `InvalidFile`
unless the spec reports 16 bits per sample. -/
def validate_file : Option WavSpec → Except StegoError Unit
  | none => .error .HoundError
  | some spec =>
    if spec.bits_per_sample ≠ 16 then
      .error (.InvalidFile ("Only 16-bit WAV file supported"))
    else .ok ()

/-! ### Bit-level helper lemmas -/

theorem get_mask_eq (w : WAV16) (h : w.lsb_deep ≤ 16) :
    w.get_mask = 2 ^ w.lsb_deep - 1 := by
  unfold WAV16.get_mask
  rw [Nat.shiftLeft_eq, Nat.one_mul, Nat.mod_eq_of_lt]
  have h2 : 2 ^ w.lsb_deep ≤ 2 ^ 16 := Nat.pow_le_pow_right (by norm_num) h
  omega

theorem get_mask_lt (w : WAV16) : w.get_mask < 2 ^ 16 := by
  unfold WAV16.get_mask
  exact Nat.mod_lt _ (by norm_num)

theorem not16_lt (x : Nat) (h : x < 2 ^ 16) : not16 x < 2 ^ 16 :=
  Nat.xor_lt_two_pow (by norm_num) h

theorem testBit_not16 (x i : Nat) :
    (not16 x).testBit i = (decide (i < 16)).xor (x.testBit i) := by
  unfold not16
  rw [Nat.testBit_xor, Nat.testBit_two_pow_sub_one]

/-- Writing a chunk `v < 2^D` into the cleared low bits and reading the low
bits back recovers `v`. -/
theorem land_write_mask (s v D : Nat) (hD : D ≤ 16) (hv : v < 2 ^ D) :
    ((s &&& not16 (2 ^ D - 1)) ||| v) &&& (2 ^ D - 1) = v := by
  apply Nat.eq_of_testBit_eq
  intro i
  rw [Nat.testBit_and, Nat.testBit_or, Nat.testBit_and, testBit_not16,
    Nat.testBit_two_pow_sub_one]
  by_cases hi : i < D
  · have h16 : i < 16 := Nat.lt_of_lt_of_le hi hD
    simp [hi, h16]
  · have hvi : v.testBit i = false :=
      Nat.testBit_lt_two_pow
        (Nat.lt_of_lt_of_le hv (Nat.pow_le_pow_right (by norm_num) (Nat.le_of_not_lt hi)))
    simp [hi, hvi]

/-- Bits at or above the depth window survive a chunk write. -/
theorem testBit_write_high (s v D k : Nat) (hs : s < 2 ^ 16) (hD : D ≤ k)
    (hv : v < 2 ^ D) : ((s &&& not16 (2 ^ D - 1)) ||| v).testBit k = s.testBit k := by
  have hvk : v.testBit k = false :=
    Nat.testBit_lt_two_pow
      (Nat.lt_of_lt_of_le hv (Nat.pow_le_pow_right (by norm_num) hD))
  rw [Nat.testBit_or, Nat.testBit_and, testBit_not16, Nat.testBit_two_pow_sub_one]
  by_cases hk : k < 16
  · have hkD : ¬ k < D := Nat.not_lt.mpr hD
    simp [hk, hkD, hvk]
  · have hsk : s.testBit k = false :=
      Nat.testBit_lt_two_pow
        (Nat.lt_of_lt_of_le hs (Nat.pow_le_pow_right (by norm_num) (Nat.le_of_not_lt hk)))
    simp [hk, hsk, hvk]

/-- After `samples[i] &= !mask`, the low bits read back as `0`. -/
theorem land_clear_mask (s D : Nat) (hD : D ≤ 16) :
    (s &&& not16 (2 ^ D - 1)) &&& (2 ^ D - 1) = 0 := by
  apply Nat.eq_of_testBit_eq
  intro i
  rw [Nat.testBit_and, Nat.testBit_and, testBit_not16, Nat.testBit_two_pow_sub_one]
  by_cases hi : i < D
  · have h16 : i < 16 := Nat.lt_of_lt_of_le hi hD
    simp [hi, h16]
  · simp [hi]

theorem write_lt_two_pow (s v m : Nat) (hm : m < 2 ^ 16) (hv : v < 2 ^ 16) :
    (s &&& not16 m) ||| v < 2 ^ 16 :=
  Nat.or_lt_two_pow (Nat.and_lt_two_pow _ (not16_lt _ hm)) hv

theorem shiftLeft_one_lor (a b : Nat) (hb : b ≤ 1) : (a <<< 1) ||| b = 2 * a + b := by
  interval_cases b
  · rw [Nat.or_zero, Nat.shiftLeft_eq, Nat.pow_one, Nat.mul_comm, Nat.add_zero]
  · apply Nat.eq_of_testBit_eq
    intro i
    cases i with
    | zero =>
      rw [Nat.testBit_or]
      simp [Nat.shiftLeft_eq, Nat.mul_comm a 2, Nat.mul_add_mod]
    | succ n =>
      have h1 : Nat.testBit 1 (n + 1) = false :=
        Nat.testBit_lt_two_pow (Nat.one_lt_two_pow (by omega))
      have hL : (a <<< 1).testBit (n + 1) = a.testBit n := by
        rw [Nat.testBit_add_one, Nat.shiftLeft_eq, Nat.pow_one,
          Nat.mul_div_cancel _ (by norm_num)]
      have hR : (2 * a + 1).testBit (n + 1) = a.testBit n := by
        rw [Nat.testBit_add_one]
        congr 1
        omega
      rw [Nat.testBit_or, hL, hR, h1, Bool.or_false]

/-! ### `bits_val`, `chunk_fill` and digit extraction -/

theorem getD_set_ne (l : List Nat) (i j : Nat) (h : i ≠ j) (a d : Nat) :
    (l.set i a).getD j d = l.getD j d := by
  simp [List.getD_eq_getElem?_getD, List.getElem?_set_ne h]

theorem getD_set_self (l : List Nat) (i : Nat) (h : i < l.length) (a d : Nat) :
    (l.set i a).getD i d = a := by
  simp [List.getD_eq_getElem?_getD, List.getElem?_set_self h]

theorem shiftRight_and_one (x sh : Nat) : (x >>> sh) &&& 1 = (x.testBit sh).toNat := by
  rw [Nat.and_one_is_mod, Nat.shiftRight_eq_div_pow, ← Nat.toNat_testBit]

theorem foldl_bits_acc :
    ∀ (l : List Nat), (∀ x ∈ l, x ≤ 1) → ∀ (a : Nat),
      l.foldl (fun x b => (x <<< 1) ||| b) a = a * 2 ^ l.length + bits_val l := by
  intro l
  induction l with
  | nil =>
    intro _ a
    simp [bits_val]
  | cons b t ih =>
    intro hb a
    have hb1 : b ≤ 1 := hb b (List.mem_cons_self b t)
    have hbt : ∀ x ∈ t, x ≤ 1 := fun x hx => hb x (List.mem_cons_of_mem _ hx)
    have hbv : bits_val (b :: t) = b * 2 ^ t.length + bits_val t := by
      unfold bits_val
      rw [List.foldl_cons, shiftLeft_one_lor 0 b hb1, ih hbt]
      norm_num
      rfl
    rw [List.foldl_cons, shiftLeft_one_lor a b hb1, ih hbt, hbv, List.length_cons]
    ring

theorem bits_val_cons (b : Nat) (t : List Nat) (hb1 : b ≤ 1) (hbt : ∀ x ∈ t, x ≤ 1) :
    bits_val (b :: t) = b * 2 ^ t.length + bits_val t := by
  unfold bits_val
  rw [List.foldl_cons, shiftLeft_one_lor 0 b hb1, foldl_bits_acc t hbt]
  norm_num
  rfl

theorem bits_val_lt (l : List Nat) (hb : ∀ x ∈ l, x ≤ 1) :
    bits_val l < 2 ^ l.length := by
  induction l with
  | nil => simp [bits_val]
  | cons b t ih =>
    have hb1 : b ≤ 1 := hb b (List.mem_cons_self b t)
    have hbt : ∀ x ∈ t, x ≤ 1 := fun x hx => hb x (List.mem_cons_of_mem _ hx)
    have h1 := ih hbt
    rw [bits_val_cons b t hb1 hbt, List.length_cons, Nat.pow_succ]
    have h2 : b * 2 ^ t.length ≤ 2 ^ t.length := by
      calc b * 2 ^ t.length ≤ 1 * 2 ^ t.length := Nat.mul_le_mul_right _ hb1
      _ = 2 ^ t.length := Nat.one_mul _
    omega

theorem bits_val_append_zeros (l : List Nat) (k : Nat) :
    bits_val (l ++ List.replicate k 0) = bits_val l * 2 ^ k := by
  have hzeros : ∀ (k : Nat) (a : Nat),
      (List.replicate k 0).foldl (fun x b => (x <<< 1) ||| b) a = a * 2 ^ k := by
    intro k
    induction k with
    | zero => intro a; simp
    | succ n ihn =>
      intro a
      rw [List.replicate_succ, List.foldl_cons, shiftLeft_one_lor a 0 (by omega), ihn,
        Nat.pow_succ]
      ring
  unfold bits_val
  rw [List.foldl_append]
  exact hzeros k _

theorem bits_digits (l : List Nat) (hb : ∀ x ∈ l, x ≤ 1) :
    (List.range l.length).reverse.map (fun sh => (bits_val l >>> sh) &&& 1) = l := by
  induction l with
  | nil => simp
  | cons b t ih =>
    have hb1 : b ≤ 1 := hb b (List.mem_cons_self b t)
    have hbt : ∀ x ∈ t, x ≤ 1 := fun x hx => hb x (List.mem_cons_of_mem _ hx)
    have hvt : bits_val t < 2 ^ t.length := bits_val_lt t hbt
    have hcons := bits_val_cons b t hb1 hbt
    have hrange : (List.range (t.length + 1)).reverse
        = t.length :: (List.range t.length).reverse := by
      rw [List.range_succ, List.reverse_append]
      simp
    rw [List.length_cons, hrange, List.map_cons]
    have hhead : (bits_val (b :: t) >>> t.length) &&& 1 = b := by
      rw [shiftRight_and_one, hcons]
      interval_cases b
      · simp [Nat.testBit_lt_two_pow hvt]
      · rw [Nat.one_mul, Nat.testBit_two_pow_add_eq, Nat.testBit_lt_two_pow hvt]
        simp
    have htail : ((List.range t.length).reverse.map
        fun sh => (bits_val (b :: t) >>> sh) &&& 1) = t := by
      have hpt : ∀ sh ∈ (List.range t.length).reverse,
          (bits_val (b :: t) >>> sh) &&& 1 = (bits_val t >>> sh) &&& 1 := by
        intro sh hsh
        rw [List.mem_reverse, List.mem_range] at hsh
        rw [shiftRight_and_one, shiftRight_and_one, hcons]
        have hmod : (b * 2 ^ t.length + bits_val t) % 2 ^ t.length = bits_val t := by
          rw [Nat.mul_add_mod', Nat.mod_eq_of_lt hvt]
        have hbit := Nat.testBit_mod_two_pow (b * 2 ^ t.length + bits_val t) t.length sh
        rw [hmod] at hbit
        rw [hbit]
        simp [hsh]
      rw [List.map_congr_left hpt]
      exact ih hbt
    rw [hhead, htail]

theorem chunk_fill_eq (d : Nat) (a : Nat) (bits : List Nat) :
    chunk_fill d a bits =
      ((bits.take d ++ List.replicate (d - (bits.take d).length) 0).foldl
          (fun x b => (x <<< 1) ||| b) a,
        bits.drop d) := by
  induction d generalizing a bits with
  | zero => simp [chunk_fill]
  | succ d ih =>
    cases bits with
    | nil =>
      rw [chunk_fill, ih]
      simp [List.replicate_succ]
    | cons b rest =>
      rw [chunk_fill, ih]
      simp

theorem chunk_fill_fst (D : Nat) (bits : List Nat) :
    (chunk_fill D 0 bits).1 =
      bits_val (bits.take D ++ List.replicate (D - (bits.take D).length) 0) := by
  rw [chunk_fill_eq]
  rfl

theorem chunk_fill_snd (D : Nat) (bits : List Nat) :
    (chunk_fill D 0 bits).2 = bits.drop D := by
  rw [chunk_fill_eq]

theorem pad_chunk_length (D : Nat) (bits : List Nat) :
    (bits.take D ++ List.replicate (D - (bits.take D).length) 0).length = D := by
  rw [List.length_append, List.length_replicate, List.length_take]
  omega

theorem pad_chunk_le_one (D : Nat) (bits : List Nat) (hb : ∀ x ∈ bits, x ≤ 1) :
    ∀ x ∈ bits.take D ++ List.replicate (D - (bits.take D).length) 0, x ≤ 1 := by
  intro x hx
  rw [List.mem_append] at hx
  rcases hx with hx | hx
  · exact hb x (List.take_subset D bits hx)
  · rw [List.eq_of_mem_replicate hx]
    omega

theorem chunk_fill_fst_lt (D : Nat) (bits : List Nat) (hb : ∀ x ∈ bits, x ≤ 1) :
    (chunk_fill D 0 bits).1 < 2 ^ D := by
  rw [chunk_fill_fst]
  have h := bits_val_lt _ (pad_chunk_le_one D bits hb)
  rw [pad_chunk_length D bits] at h
  exact h

/-! ### `sample_bits` lemmas -/

theorem sample_bits_length (w : WAV16) (s : Nat) :
    (w.sample_bits s).length = w.lsb_deep := by
  unfold WAV16.sample_bits
  simp

theorem sample_bits_le_one (w : WAV16) (s : Nat) : ∀ b ∈ w.sample_bits s, b ≤ 1 := by
  intro b hb
  unfold WAV16.sample_bits at hb
  rw [List.mem_map] at hb
  obtain ⟨sh, _, rfl⟩ := hb
  rw [Nat.and_one_is_mod]
  omega

/-- Reading the depth window of a sample that a chunk write just produced
yields exactly the written bit list. -/
theorem sample_bits_write (w : WAV16) (hD16 : w.lsb_deep ≤ 16) (s : Nat) (l : List Nat)
    (hb : ∀ x ∈ l, x ≤ 1) (hlen : l.length = w.lsb_deep) :
    w.sample_bits ((s &&& not16 w.get_mask) ||| bits_val l) = l := by
  unfold WAV16.sample_bits
  rw [get_mask_eq w hD16]
  have hv : bits_val l < 2 ^ w.lsb_deep := by
    have := bits_val_lt l hb
    rwa [hlen] at this
  rw [land_write_mask s (bits_val l) w.lsb_deep hD16 hv, ← hlen]
  exact bits_digits l hb

/-- Reading the depth window of a sample whose low bits were zeroed yields
all-zero bits. -/
theorem sample_bits_zeroed (w : WAV16) (hD16 : w.lsb_deep ≤ 16) (s : Nat) :
    w.sample_bits (s &&& not16 w.get_mask) = List.replicate w.lsb_deep 0 := by
  unfold WAV16.sample_bits
  rw [get_mask_eq w hD16, land_clear_mask s w.lsb_deep hD16]
  apply List.eq_replicate_iff.2
  constructor
  · simp
  · intro b hb
    rw [List.mem_map] at hb
    obtain ⟨sh, _, rfl⟩ := hb
    simp

theorem read_bits_nil (w : WAV16) (samples : List Nat) : w.read_bits samples [] = [] := rfl

theorem read_bits_cons (w : WAV16) (samples : List Nat) (i : Nat) (rest : List Nat) :
    w.read_bits samples (i :: rest)
      = w.sample_bits (samples.getD i 0) ++ w.read_bits samples rest := by
  unfold WAV16.read_bits
  rw [List.map_cons, List.flatten_cons]

theorem read_bits_congr (w : WAV16) (s1 s2 : List Nat) (idxs : List Nat)
    (h : ∀ i ∈ idxs, s1.getD i 0 = s2.getD i 0) :
    w.read_bits s1 idxs = w.read_bits s2 idxs := by
  unfold WAV16.read_bits
  congr 1
  apply List.map_congr_left
  intro i hi
  rw [h i hi]

theorem read_bits_length (w : WAV16) (samples idxs : List Nat) :
    (w.read_bits samples idxs).length = w.lsb_deep * idxs.length := by
  induction idxs with
  | nil => simp [read_bits_nil]
  | cons i rest ih =>
    rw [read_bits_cons, List.length_append, ih, sample_bits_length, List.length_cons]
    ring

/-! ### `hide_loop` lemmas -/

theorem hide_loop_length (D mask : Nat) :
    ∀ (idxs samples bits : List Nat),
      (hide_loop D mask samples idxs bits).length = samples.length := by
  intro idxs
  induction idxs with
  | nil =>
    intro samples bits
    rfl
  | cons i rest ih =>
    intro samples bits
    rw [hide_loop]
    by_cases h : bits.length < D
    · simp [h]
    · simp [h, ih]

theorem hide_loop_getD_not_mem (D mask : Nat) :
    ∀ (idxs samples bits : List Nat) (j d : Nat), j ∉ idxs →
      (hide_loop D mask samples idxs bits).getD j d = samples.getD j d := by
  intro idxs
  induction idxs with
  | nil =>
    intro samples bits j d _
    rfl
  | cons i rest ih =>
    intro samples bits j d hj
    have hji : j ≠ i := fun h => hj (h ▸ List.mem_cons_self i rest)
    have hjr : j ∉ rest := fun h => hj (List.mem_cons_of_mem i h)
    rw [hide_loop]
    by_cases h : bits.length < D
    · simp only [h, if_true]
      exact getD_set_ne _ i j (fun h' => hji h'.symm) _ d
    · simp only [h, if_false]
      rw [ih _ _ j d hjr]
      exact getD_set_ne _ i j (fun h' => hji h'.symm) _ d

theorem hide_steps_cons (D L r : Nat) (hD : 0 < D) (hge : D ≤ L) :
    hide_steps D L (r + 1) = hide_steps D (L - D) r + 1 := by
  unfold hide_steps
  have h1 : (r + 1) * D = r * D + D := by ring
  have h2 : L / D = (L - D) / D + 1 := by
    have h3 : L - D + D = L := by omega
    conv_lhs => rw [← h3]
    rw [Nat.add_div_right _ hD]
  by_cases hc : L < (r + 1) * D
  · have hc2 : L - D < r * D := by omega
    simp [hc, hc2, h2]
  · have hc2 : ¬ L - D < r * D := by omega
    simp [hc, hc2]

/-- The samples the hide loop never visits before it stops keep their
original value. -/
theorem hide_loop_getD_beyond (D mask : Nat) (hD : 0 < D) :
    ∀ (idxs samples bits : List Nat) (j d : Nat),
      j ∉ idxs.take (hide_steps D bits.length idxs.length) →
      (hide_loop D mask samples idxs bits).getD j d = samples.getD j d := by
  intro idxs
  induction idxs with
  | nil =>
    intro samples bits j d _
    rfl
  | cons i rest ih =>
    intro samples bits j d hj
    rw [hide_loop]
    by_cases h : bits.length < D
    · have hsteps : hide_steps D bits.length (i :: rest).length = 1 := by
        have hlt : bits.length < (i :: rest).length * D := by
          have : 1 * D ≤ (i :: rest).length * D :=
            Nat.mul_le_mul_right D (by simp)
          omega
        have hz : bits.length / D = 0 := Nat.div_eq_of_lt h
        unfold hide_steps
        rw [if_pos hlt, hz]
      rw [hsteps] at hj
      simp only [List.take_succ_cons, List.take_zero] at hj
      have hji : j ≠ i := fun h' => hj (h' ▸ List.mem_singleton_self i)
      simp only [h, if_true]
      exact getD_set_ne _ i j (fun h' => hji h'.symm) _ d
    · have hge : D ≤ bits.length := Nat.le_of_not_lt h
      rw [List.length_cons, hide_steps_cons D bits.length rest.length hD hge] at hj
      rw [List.take_succ_cons] at hj
      have hji : j ≠ i := fun h' => hj (h' ▸ List.mem_cons_self i _)
      have hjr : j ∉ rest.take (hide_steps D (bits.length - D) rest.length) :=
        fun h' => hj (List.mem_cons_of_mem i h')
      simp only [h, if_false]
      rw [chunk_fill_snd]
      have hdrop : (bits.drop D).length = bits.length - D := by
        rw [List.length_drop]
      rw [← hdrop] at hjr
      rw [ih _ _ j d hjr]
      exact getD_set_ne _ i j (fun h' => hji h'.symm) _ d

/-- Reading back along the same index stream after the hide loop yields the
embedded bit stream as a prefix. -/
theorem hide_loop_read (w : WAV16) (hD16 : w.lsb_deep ≤ 16) :
    ∀ (idxs samples bits : List Nat),
      idxs.Nodup → (∀ i ∈ idxs, i < samples.length) →
      (∀ x ∈ bits, x ≤ 1) → bits.length ≤ w.lsb_deep * idxs.length →
      ∃ suffix,
        w.read_bits (hide_loop w.lsb_deep (not16 w.get_mask) samples idxs bits) idxs
          = bits ++ suffix := by
  intro idxs
  induction idxs with
  | nil =>
    intro samples bits _ _ _ hlen
    simp only [List.length_nil, Nat.mul_zero, Nat.le_zero] at hlen
    exact ⟨[], by simp [read_bits_nil, List.length_eq_zero.1 hlen]⟩
  | cons i rest ih =>
    intro samples bits hnd hrange hb hlen
    have hi : i < samples.length := hrange i (List.mem_cons_self i rest)
    rw [List.nodup_cons] at hnd
    rw [hide_loop]
    by_cases h : bits.length < w.lsb_deep
    · simp only [h, if_true]
      set v := (chunk_fill w.lsb_deep 0 bits).1 with hv
      set samples' := samples.set i ((samples.getD i 0 &&& not16 w.get_mask) ||| v)
        with hs'
      have htake : bits.take w.lsb_deep = bits := List.take_of_length_le (Nat.le_of_lt h)
      have hpad : v = bits_val (bits ++ List.replicate (w.lsb_deep - bits.length) 0) := by
        rw [hv, chunk_fill_fst, htake]
      have hread : w.sample_bits (samples'.getD i 0)
          = bits ++ List.replicate (w.lsb_deep - bits.length) 0 := by
        rw [hs', getD_set_self samples i hi, hpad]
        apply sample_bits_write w hD16 _ _
        · intro x hx
          rw [List.mem_append] at hx
          rcases hx with hx | hx
          · exact hb x hx
          · rw [List.eq_of_mem_replicate hx]; omega
        · rw [List.length_append, List.length_replicate]
          omega
      refine ⟨List.replicate (w.lsb_deep - bits.length) 0 ++ w.read_bits samples' rest, ?_⟩
      rw [read_bits_cons, hread, List.append_assoc]
    · simp only [h, if_false]
      rw [chunk_fill_snd]
      have hge : w.lsb_deep ≤ bits.length := Nat.le_of_not_lt h
      set v := (chunk_fill w.lsb_deep 0 bits).1 with hv
      set samples' := samples.set i ((samples.getD i 0 &&& not16 w.get_mask) ||| v)
        with hs'
      have hlen' : samples'.length = samples.length := by
        rw [hs', List.length_set]
      have hdropb : ∀ x ∈ bits.drop w.lsb_deep, x ≤ 1 :=
        fun x hx => hb x (List.drop_subset _ bits hx)
      have hdlen : (bits.drop w.lsb_deep).length ≤ w.lsb_deep * rest.length := by
        rw [List.length_drop]
        rw [List.length_cons] at hlen
        have : w.lsb_deep * (rest.length + 1) = w.lsb_deep * rest.length + w.lsb_deep := by
          ring
        omega
      obtain ⟨suffix, hsuf⟩ := ih samples' (bits.drop w.lsb_deep) hnd.2
        (fun j hj => hlen' ▸ hrange j (List.mem_cons_of_mem i hj)) hdropb hdlen
      have hRi : (hide_loop w.lsb_deep (not16 w.get_mask) samples' rest
          (bits.drop w.lsb_deep)).getD i 0
          = (samples.getD i 0 &&& not16 w.get_mask) ||| v := by
        rw [hide_loop_getD_not_mem _ _ rest samples' _ i 0 hnd.1,
          hs', getD_set_self samples i hi]
      have htake : (bits.take w.lsb_deep).length = w.lsb_deep := by
        rw [List.length_take]
        omega
      have hvb : v = bits_val (bits.take w.lsb_deep) := by
        rw [hv, chunk_fill_fst, htake, Nat.sub_self, List.replicate_zero, List.append_nil]
      have hread : w.sample_bits ((hide_loop w.lsb_deep (not16 w.get_mask) samples' rest
          (bits.drop w.lsb_deep)).getD i 0) = bits.take w.lsb_deep := by
        rw [hRi, hvb]
        exact sample_bits_write w hD16 _ _
          (fun x hx => hb x (List.take_subset _ bits hx)) htake
      refine ⟨suffix, ?_⟩
      rw [read_bits_cons, hread, hsuf, ← List.append_assoc, List.take_append_drop]

/-! ### Byte assembly lemmas -/

theorem byteBits_length (b : Nat) : (byteBits b).length = 8 := by
  unfold byteBits
  simp

theorem byteBits_le_one (b : Nat) : ∀ x ∈ byteBits b, x ≤ 1 := by
  intro x hx
  unfold byteBits at hx
  rw [List.mem_map] at hx
  obtain ⟨sh, _, rfl⟩ := hx
  rw [Nat.and_one_is_mod]
  omega

set_option maxRecDepth 4000 in
theorem bits_val_byteBits : ∀ b < 256, bits_val (byteBits b) = b := by decide

theorem byteBits_zero : byteBits 0 = List.replicate 8 0 := by decide

theorem bits_to_bytes_chunk :
    ∀ (l : List Nat) (cb bc : Nat) (rest : List Nat),
      l ≠ [] → bc + l.length = 8 →
      bits_to_bytes cb bc (l ++ rest)
        = (l.foldl (fun x b => (x <<< 1) ||| b) cb) :: bits_to_bytes 0 0 rest := by
  intro l
  induction l with
  | nil =>
    intro cb bc rest hne _
    exact absurd rfl hne
  | cons b t ih =>
    intro cb bc rest _ hlen
    rw [List.length_cons] at hlen
    rw [List.cons_append, bits_to_bytes]
    by_cases ht : t = []
    · subst ht
      have hbc : bc + 1 = 8 := by simpa using hlen
      rw [if_pos hbc]
      simp
    · have htl : 1 ≤ t.length := List.length_pos.2 ht
      have hbc : ¬ bc + 1 = 8 := by omega
      rw [if_neg hbc, ih ((cb <<< 1) ||| b) (bc + 1) rest ht (by omega), List.foldl_cons]

theorem bits_to_bytes_byte (b : Nat) (hb : b < 256) (rest : List Nat) :
    bits_to_bytes 0 0 (byteBits b ++ rest) = b :: bits_to_bytes 0 0 rest := by
  rw [bits_to_bytes_chunk (byteBits b) 0 0 rest
    (by rw [← List.length_pos, byteBits_length]; omega)
    (by rw [byteBits_length])]
  have hfold : (byteBits b).foldl (fun x y => (x <<< 1) ||| y) 0 = bits_val (byteBits b) := rfl
  rw [hfold, bits_val_byteBits b hb]

theorem bits_to_bytes_bytes :
    ∀ (bs : List Nat), (∀ b ∈ bs, b < 256) → ∀ (rest : List Nat),
      bits_to_bytes 0 0 ((bs.map byteBits).flatten ++ rest)
        = bs ++ bits_to_bytes 0 0 rest := by
  intro bs
  induction bs with
  | nil =>
    intro _ rest
    simp
  | cons b t ih =>
    intro hb rest
    rw [List.map_cons, List.flatten_cons, List.append_assoc,
      bits_to_bytes_byte b (hb b (List.mem_cons_self b t)) _,
      ih (fun x hx => hb x (List.mem_cons_of_mem b hx)) rest, List.cons_append]

theorem bits_to_bytes_short :
    ∀ (l : List Nat) (cb bc : Nat), l.length + bc < 8 → bits_to_bytes cb bc l = [] := by
  intro l
  induction l with
  | nil =>
    intro cb bc _
    rfl
  | cons b t ih =>
    intro cb bc h
    rw [List.length_cons] at h
    rw [bits_to_bytes, if_neg (by omega)]
    exact ih _ _ (by omega)

theorem bits_to_bytes_zeros :
    ∀ (l : List Nat), (∀ x ∈ l, x = 0) → ∀ (bc : Nat),
      ∀ b ∈ bits_to_bytes 0 bc l, b = 0 := by
  intro l
  induction l with
  | nil =>
    intro _ bc b hb
    cases hb
  | cons x t ih =>
    intro hz bc b hb
    have hx : x = 0 := hz x (List.mem_cons_self x t)
    have hzt : ∀ y ∈ t, y = 0 := fun y hy => hz y (List.mem_cons_of_mem x hy)
    rw [bits_to_bytes] at hb
    subst hx
    simp only [Nat.zero_shiftLeft, Nat.zero_or] at hb
    by_cases hbc : bc + 1 = 8
    · rw [if_pos hbc] at hb
      rcases List.mem_cons.1 hb with h0 | h0
      · exact h0
      · exact ih hzt 0 b h0
    · rw [if_neg hbc] at hb
      exact ih hzt (bc + 1) b hb

theorem zero_bytes_flat :
    ∀ (k : Nat), ((List.replicate k 0).map byteBits).flatten = List.replicate (8 * k) 0 := by
  intro k
  induction k with
  | zero => rfl
  | succ n ih =>
    rw [List.replicate_succ, List.map_cons, List.flatten_cons, ih, byteBits_zero,
      ← List.replicate_add]
    congr 1
    ring

theorem first_zero_append (pre suffix : List Nat) (h : ∀ b ∈ pre, b ≠ 0) :
    first_zero (pre ++ suffix) = (first_zero suffix).map (· + pre.length) := by
  induction pre with
  | nil =>
    simp only [List.nil_append, List.length_nil]
    cases first_zero suffix <;> simp
  | cons b t ih =>
    have hb : b ≠ 0 := h b (List.mem_cons_self b t)
    have ht : ∀ x ∈ t, x ≠ 0 := fun x hx => h x (List.mem_cons_of_mem b hx)
    rw [List.cons_append, first_zero, if_neg hb, ih ht, List.length_cons]
    cases first_zero suffix
    · simp
    · simp
      omega

theorem first_zero_none (l : List Nat) (h : ∀ b ∈ l, b ≠ 0) : first_zero l = none := by
  induction l with
  | nil => rfl
  | cons b t ih =>
    rw [first_zero, if_neg (h b (List.mem_cons_self b t)),
      ih (fun x hx => h x (List.mem_cons_of_mem b hx))]
    rfl

/-! ### Scan and zeroing lemmas for the clear loop -/

theorem scan_zero_short :
    ∀ (l : List Nat) (cb bc : Nat), l.length + bc < 8 → scan_zero cb bc l = none := by
  intro l
  induction l with
  | nil =>
    intro cb bc _
    rfl
  | cons b t ih =>
    intro cb bc h
    rw [List.length_cons] at h
    rw [scan_zero, if_neg (by omega), ih _ _ (by omega)]
    rfl

theorem zero_low_nil (w : WAV16) (samples : List Nat) : zero_low w samples [] = samples := rfl

theorem zero_low_cons (w : WAV16) (samples : List Nat) (i : Nat) (idxs : List Nat) :
    zero_low w samples (i :: idxs)
      = zero_low w (samples.set i (samples.getD i 0 &&& not16 w.get_mask)) idxs := rfl

theorem zero_low_length (w : WAV16) :
    ∀ (idxs samples : List Nat), (zero_low w samples idxs).length = samples.length := by
  intro idxs
  induction idxs with
  | nil =>
    intro samples
    rfl
  | cons i rest ih =>
    intro samples
    rw [zero_low_cons, ih, List.length_set]

theorem zero_low_getD_not_mem (w : WAV16) :
    ∀ (idxs samples : List Nat) (j d : Nat), j ∉ idxs →
      (zero_low w samples idxs).getD j d = samples.getD j d := by
  intro idxs
  induction idxs with
  | nil =>
    intro samples j d _
    rfl
  | cons i rest ih =>
    intro samples j d hj
    have hji : j ≠ i := fun h => hj (h ▸ List.mem_cons_self i rest)
    rw [zero_low_cons, ih _ j d (fun h => hj (List.mem_cons_of_mem i h))]
    exact getD_set_ne _ i j (fun h => hji h.symm) _ d

theorem zero_low_getD_mem (w : WAV16) :
    ∀ (idxs samples : List Nat) (j : Nat), idxs.Nodup → j ∈ idxs → j < samples.length →
      (zero_low w samples idxs).getD j 0 = samples.getD j 0 &&& not16 w.get_mask := by
  intro idxs
  induction idxs with
  | nil =>
    intro samples j _ hj _
    cases hj
  | cons i rest ih =>
    intro samples j hnd hj hlen
    rw [List.nodup_cons] at hnd
    rw [zero_low_cons]
    rcases List.mem_cons.1 hj with hji | hjr
    · subst hji
      rw [zero_low_getD_not_mem w rest _ j 0 hnd.1]
      exact getD_set_self samples j hlen _ _
    · have hji : j ≠ i := fun h => hnd.1 (h ▸ hjr)
      rw [ih _ j hnd.2 hjr (by rw [List.length_set]; exact hlen)]
      rw [getD_set_ne _ i j (fun h => hji h.symm) _ 0]

/-- Scanning a full chunk: either the zero byte completes inside the chunk,
or the scan continues past it with the accumulator the chunk left behind. -/
theorem scan_chunk :
    ∀ (chunk : List Nat) (cb bc : Nat) (rest : List Nat),
      (clear_chunk cb bc chunk = none →
        ∃ n, scan_zero cb bc (chunk ++ rest) = some n ∧ 1 ≤ n ∧ n ≤ chunk.length) ∧
      (∀ cb' bc', clear_chunk cb bc chunk = some (cb', bc') →
        scan_zero cb bc (chunk ++ rest)
          = (scan_zero cb' bc' rest).map (· + chunk.length)) := by
  intro chunk
  induction chunk with
  | nil =>
    intro cb bc rest
    constructor
    · intro h
      rw [clear_chunk] at h
      cases h
    · intro cb' bc' h
      rw [clear_chunk] at h
      cases h
      rw [List.nil_append, List.length_nil]
      cases scan_zero cb bc rest <;> simp
  | cons bit t ih =>
    intro cb bc rest
    rw [List.cons_append]
    by_cases h8 : bc + 1 = 8
    · by_cases h0 : (cb <<< 1) ||| bit = 0
      · constructor
        · intro _
          refine ⟨1, ?_, by omega, by rw [List.length_cons]; omega⟩
          rw [scan_zero, if_pos h8, if_pos h0]
        · intro cb' bc' hc
          rw [clear_chunk, clear_push, if_pos h8, if_pos h0] at hc
          cases hc
      · have hstep : clear_chunk cb bc (bit :: t) = clear_chunk 0 0 t := by
          rw [clear_chunk, clear_push, if_pos h8, if_neg h0]
        have hscan : scan_zero cb bc (bit :: (t ++ rest))
            = (scan_zero 0 0 (t ++ rest)).map (· + 1) := by
          rw [scan_zero, if_pos h8, if_neg h0]
        constructor
        · intro hc
          rw [hstep] at hc
          obtain ⟨n, hn, hn1, hnle⟩ := (ih 0 0 rest).1 hc
          refine ⟨n + 1, ?_, by omega, by rw [List.length_cons]; omega⟩
          rw [hscan, hn]
          rfl
        · intro cb' bc' hc
          rw [hstep] at hc
          rw [hscan, (ih 0 0 rest).2 cb' bc' hc, List.length_cons]
          cases scan_zero cb' bc' rest
          · rfl
          · simp
            omega
    · have hstep : clear_chunk cb bc (bit :: t)
          = clear_chunk ((cb <<< 1) ||| bit) (bc + 1) t := by
        rw [clear_chunk, clear_push, if_neg h8]
      have hscan : scan_zero cb bc (bit :: (t ++ rest))
          = (scan_zero ((cb <<< 1) ||| bit) (bc + 1) (t ++ rest)).map (· + 1) := by
        rw [scan_zero, if_neg h8]
      constructor
      · intro hc
        rw [hstep] at hc
        obtain ⟨n, hn, hn1, hnle⟩ := (ih ((cb <<< 1) ||| bit) (bc + 1) rest).1 hc
        refine ⟨n + 1, ?_, by omega, by rw [List.length_cons]; omega⟩
        rw [hscan, hn]
        rfl
      · intro cb' bc' hc
        rw [hstep] at hc
        rw [hscan, (ih ((cb <<< 1) ||| bit) (bc + 1) rest).2 cb' bc' hc, List.length_cons]
        cases scan_zero cb' bc' rest
        · rfl
        · simp
          omega

/-- Scanning a byte-aligned group: the scan finds a zero byte at the group
exactly when the group's value is zero, and otherwise restarts cleanly. -/
theorem scan_zero_fill :
    ∀ (l : List Nat) (cb bc : Nat) (rest : List Nat), bc + l.length = 8 → l ≠ [] →
      scan_zero cb bc (l ++ rest)
        = if l.foldl (fun x b => (x <<< 1) ||| b) cb = 0
          then some l.length
          else (scan_zero 0 0 rest).map (· + l.length) := by
  intro l
  induction l with
  | nil =>
    intro cb bc rest _ hne
    exact absurd rfl hne
  | cons b t ih =>
    intro cb bc rest hlen _
    rw [List.length_cons] at hlen
    rw [List.cons_append, scan_zero]
    by_cases ht : t = []
    · subst ht
      have h8 : bc + 1 = 8 := by simpa using hlen
      rw [if_pos h8, List.nil_append, List.foldl_cons, List.foldl_nil]
      by_cases h0 : (cb <<< 1) ||| b = 0
      · rw [if_pos h0, if_pos h0]
        rfl
      · rw [if_neg h0, if_neg h0]
        rfl
    · have htl : 1 ≤ t.length := List.length_pos.2 ht
      have h8 : ¬ bc + 1 = 8 := by omega
      rw [if_neg h8, ih ((cb <<< 1) ||| b) (bc + 1) rest (by omega) ht, List.foldl_cons,
        List.length_cons]
      by_cases h0 : t.foldl (fun x y => (x <<< 1) ||| y) ((cb <<< 1) ||| b) = 0
      · rw [if_pos h0, if_pos h0]
        rfl
      · rw [if_neg h0, if_neg h0]
        cases scan_zero 0 0 rest
        · rfl
        · simp
          omega

/-- Full characterization of the `clear_secret_message_binary` mutation
loop: it stops right after the sample in which the first zero byte of the
re-derived bit stream completes, zeroing exactly the samples visited so
far; when no zero byte ever completes, it zeroes every visited sample and
fails with `FailedToReceiveMessage`. -/
theorem clear_loop_spec (w : WAV16) (hD1 : 1 ≤ w.lsb_deep) :
    ∀ (idxs samples : List Nat) (cb bc : Nat),
      idxs.Nodup → (∀ i ∈ idxs, i < samples.length) →
      ((∀ n, scan_zero cb bc (w.read_bits samples idxs) = some n →
          clear_loop w samples idxs cb bc
            = (.ok (), zero_low w samples
                (idxs.take ((n + (w.lsb_deep - 1)) / w.lsb_deep)))
            ∧ 1 ≤ n ∧ n ≤ w.lsb_deep * idxs.length) ∧
        (scan_zero cb bc (w.read_bits samples idxs) = none →
          clear_loop w samples idxs cb bc
            = (.error .FailedToReceiveMessage, zero_low w samples idxs))) := by
  intro idxs
  induction idxs with
  | nil =>
    intro samples cb bc _ _
    constructor
    · intro n hn
      rw [read_bits_nil] at hn
      cases hn
    · intro _
      rfl
  | cons i rest ih =>
    intro samples cb bc hnd hrange
    rw [List.nodup_cons] at hnd
    have hi : i < samples.length := hrange i (List.mem_cons_self i rest)
    have hchunklen : (w.sample_bits (samples.getD i 0)).length = w.lsb_deep :=
      sample_bits_length w _
    set samples' := samples.set i (samples.getD i 0 &&& not16 w.get_mask) with hs'
    have hrb : w.read_bits samples (i :: rest)
        = w.sample_bits (samples.getD i 0) ++ w.read_bits samples rest :=
      read_bits_cons w samples i rest
    have hrb' : w.read_bits samples rest = w.read_bits samples' rest := by
      apply read_bits_congr
      intro j hj
      have hji : j ≠ i := fun h => hnd.1 (h ▸ hj)
      rw [hs', getD_set_ne samples i j (fun h => hji h.symm) _ 0]
    rcases hcc : clear_chunk cb bc (w.sample_bits (samples.getD i 0)) with _ | ⟨cb', bc'⟩
    · have hloop : clear_loop w samples (i :: rest) cb bc = (.ok (), samples') := by
        rw [clear_loop, hcc]
      obtain ⟨n₀, hn₀, h1, hle⟩ :=
        (scan_chunk _ cb bc (w.read_bits samples rest)).1 hcc
      rw [hchunklen] at hle
      constructor
      · intro n hn
        rw [hrb] at hn
        rw [hn₀] at hn
        cases hn
        have ht : (n₀ + (w.lsb_deep - 1)) / w.lsb_deep = 1 :=
          Nat.div_eq_of_lt_le (by omega) (by omega)
        have hz1 : zero_low w samples ((i :: rest).take 1) = samples' := by
          rw [hs']
          rfl
        refine ⟨?_, by omega, ?_⟩
        · rw [hloop, ht, hz1]
        · rw [List.length_cons]
          have hD : w.lsb_deep * (rest.length + 1)
              = w.lsb_deep * rest.length + w.lsb_deep := by ring
          omega
      · intro hn
        rw [hrb, hn₀] at hn
        cases hn
    · have hloop : clear_loop w samples (i :: rest) cb bc
          = clear_loop w samples' rest cb' bc' := by
        rw [clear_loop, hcc]
      have hscan := (scan_chunk _ cb bc (w.read_bits samples rest)).2 cb' bc' hcc
      rw [hchunklen] at hscan
      have hrange' : ∀ j ∈ rest, j < samples'.length := by
        intro j hj
        rw [hs', List.length_set]
        exact hrange j (List.mem_cons_of_mem i hj)
      have IH := ih samples' cb' bc' hnd.2 hrange'
      constructor
      · intro n hn
        rw [hrb, hscan, hrb'] at hn
        rcases hm : scan_zero cb' bc' (w.read_bits samples' rest) with _ | m
        · rw [hm] at hn
          cases hn
        · rw [hm] at hn
          simp only [Option.map_some', Option.some.injEq] at hn
          obtain ⟨hLoop', hm1, hmle⟩ := IH.1 m hm
          have hn' : n = m + w.lsb_deep := by omega
          have ht : (n + (w.lsb_deep - 1)) / w.lsb_deep
              = (m + (w.lsb_deep - 1)) / w.lsb_deep + 1 := by
            have heq : n + (w.lsb_deep - 1) = m + (w.lsb_deep - 1) + w.lsb_deep := by
              omega
            rw [heq, Nat.add_div_right _ (by omega)]
          refine ⟨?_, by omega, ?_⟩
          · rw [hloop, hLoop', ht, List.take_succ_cons, zero_low_cons, ← hs']
          · rw [List.length_cons]
            have hD : w.lsb_deep * (rest.length + 1)
                = w.lsb_deep * rest.length + w.lsb_deep := by ring
            omega
      · intro hn
        rw [hrb, hscan, hrb'] at hn
        rcases hm : scan_zero cb' bc' (w.read_bits samples' rest) with _ | m
        · rw [hloop, IH.2 hm, zero_low_cons, ← hs']
        · rw [hm] at hn
          cases hn

/-- The bit-level scan finds its zero byte exactly where the assembled byte
list has its first zero: after `8 * (z + 1)` bits for the zero at byte
index `z`, and never when no byte is zero. -/
theorem scan_zero_bytes :
    ∀ (m : Nat) (bits : List Nat), bits.length ≤ m →
      ((∀ z, first_zero (bits_to_bytes 0 0 bits) = some z →
          scan_zero 0 0 bits = some (8 * (z + 1))) ∧
        (first_zero (bits_to_bytes 0 0 bits) = none → scan_zero 0 0 bits = none)) := by
  intro m
  induction m using Nat.strong_induction_on with
  | _ m ih =>
    intro bits hlen
    by_cases h8 : bits.length < 8
    · have hbytes : bits_to_bytes 0 0 bits = [] :=
        bits_to_bytes_short bits 0 0 (by omega)
      have hscan : scan_zero 0 0 bits = none := scan_zero_short bits 0 0 (by omega)
      constructor
      · intro z hz
        rw [hbytes] at hz
        cases hz
      · intro _
        exact hscan
    · have hge : 8 ≤ bits.length := Nat.le_of_not_lt h8
      have htl : (bits.take 8).length = 8 := by
        rw [List.length_take]
        omega
      have hne : bits.take 8 ≠ [] := by
        rw [← List.length_pos, htl]
        omega
      have hsplit : bits.take 8 ++ bits.drop 8 = bits := List.take_append_drop 8 bits
      have hfold : (bits.take 8).foldl (fun x b => (x <<< 1) ||| b) 0
          = bits_val (bits.take 8) := rfl
      have hbytes : bits_to_bytes 0 0 bits
          = bits_val (bits.take 8) :: bits_to_bytes 0 0 (bits.drop 8) := by
        conv_lhs => rw [← hsplit]
        rw [bits_to_bytes_chunk _ 0 0 _ hne (by rw [htl]), hfold]
      have hscan : scan_zero 0 0 bits
          = if bits_val (bits.take 8) = 0 then some 8
            else (scan_zero 0 0 (bits.drop 8)).map (· + 8) := by
        conv_lhs => rw [← hsplit]
        rw [scan_zero_fill _ 0 0 _ (by rw [htl]) hne, hfold, htl]
      have hdrop : (bits.drop 8).length < m := by
        rw [List.length_drop]
        omega
      have IH := ih (bits.drop 8).length hdrop (bits.drop 8) (Nat.le_refl _)
      by_cases hz0 : bits_val (bits.take 8) = 0
      · constructor
        · intro z hz
          rw [hbytes, first_zero, if_pos hz0] at hz
          cases hz
          rw [hscan, if_pos hz0]
        · intro hz
          rw [hbytes, first_zero, if_pos hz0] at hz
          cases hz
      · constructor
        · intro z hz
          rw [hbytes, first_zero, if_neg hz0] at hz
          rcases hfz : first_zero (bits_to_bytes 0 0 (bits.drop 8)) with _ | z'
          · rw [hfz] at hz
            cases hz
          · rw [hfz] at hz
            simp only [Option.map_some', Option.some.injEq] at hz
            rw [hscan, if_neg hz0, IH.1 z' hfz]
            simp only [Option.map_some', Option.some.injEq]
            omega
        · intro hz
          rw [hbytes, first_zero, if_neg hz0] at hz
          rcases hfz : first_zero (bits_to_bytes 0 0 (bits.drop 8)) with _ | z'
          · rw [hscan, if_neg hz0, IH.2 hfz]
            rfl
          · rw [hfz] at hz
            cases hz

/-! ### Extraction helper lemmas -/

theorem extract_until_nul_split :
    ∀ (pre : List Nat), (∀ b ∈ pre, b ≠ 0) → ∀ (post : List Nat),
      extract_until_nul (pre ++ 0 :: post) = some pre := by
  intro pre
  induction pre with
  | nil =>
    intro _ post
    rw [List.nil_append, extract_until_nul, if_pos rfl]
  | cons b t ih =>
    intro h post
    rw [List.cons_append, extract_until_nul,
      if_neg (h b (List.mem_cons_self b t)),
      ih (fun x hx => h x (List.mem_cons_of_mem b hx)) post]
    rfl

theorem extract_until_nul_none :
    ∀ (l : List Nat), (∀ b ∈ l, b ≠ 0) → extract_until_nul l = none := by
  intro l
  induction l with
  | nil =>
    intro _
    rfl
  | cons b t ih =>
    intro h
    rw [extract_until_nul, if_neg (h b (List.mem_cons_self b t)),
      ih (fun x hx => h x (List.mem_cons_of_mem b hx))]
    rfl

theorem flat_byteBits_length :
    ∀ (bs : List Nat), ((bs.map byteBits).flatten).length = 8 * bs.length := by
  intro bs
  induction bs with
  | nil => rfl
  | cons b t ih =>
    rw [List.map_cons, List.flatten_cons, List.length_append, ih, byteBits_length,
      List.length_cons]
    ring

theorem payload_bits_length (header message : List Nat) :
    (payload_bits header message).length = 8 * (header.length + message.length + 1) := by
  unfold payload_bits
  rw [flat_byteBits_length]
  simp only [List.length_append, List.length_cons, List.length_nil]

theorem payload_bits_le_one (header message : List Nat) :
    ∀ x ∈ payload_bits header message, x ≤ 1 := by
  intro x hx
  unfold payload_bits at hx
  rw [List.mem_flatten] at hx
  obtain ⟨l, hl, hxl⟩ := hx
  rw [List.mem_map] at hl
  obtain ⟨b, _, rfl⟩ := hl
  exact byteBits_le_one b x hxl

theorem read_bits_append (w : WAV16) (samples : List Nat) (a b : List Nat) :
    w.read_bits samples (a ++ b) = w.read_bits samples a ++ w.read_bits samples b := by
  unfold WAV16.read_bits
  rw [List.map_append, List.flatten_append]

theorem sample_bits_eq_zero (w : WAV16) (s : Nat) (h : s &&& w.get_mask = 0) :
    w.sample_bits s = List.replicate w.lsb_deep 0 := by
  unfold WAV16.sample_bits
  rw [h]
  apply List.eq_replicate_iff.2
  constructor
  · simp
  · intro b hb
    rw [List.mem_map] at hb
    obtain ⟨sh, _, rfl⟩ := hb
    simp

theorem read_bits_all_zeroed (w : WAV16) (R : List Nat) :
    ∀ (idxs : List Nat),
      (∀ i ∈ idxs, w.sample_bits (R.getD i 0) = List.replicate w.lsb_deep 0) →
      w.read_bits R idxs = List.replicate (w.lsb_deep * idxs.length) 0 := by
  intro idxs
  induction idxs with
  | nil =>
    intro _
    rfl
  | cons i rest ih =>
    intro h
    rw [read_bits_cons, h i (List.mem_cons_self i rest),
      ih (fun j hj => h j (List.mem_cons_of_mem i hj)), List.length_cons,
      ← List.replicate_add]
    congr 1
    ring

theorem validate_header_eq (w : WAV16) (samples indices : List Nat)
    (hH : w.header ≠ []) :
    w.validate_header samples indices
      = if (w.decoded_bytes samples indices).take w.header.length = w.header
        then .ok ((w.decoded_bytes samples indices).drop w.header.length)
        else .error .IncorrectPassword := by
  unfold WAV16.validate_header
  have hlen : ¬ w.header.length = 0 := by
    have := List.length_pos.2 hH
    omega
  simp only [hlen, ite_false]

theorem extract_eq_of_validate_ok (w : WAV16) (samples indices rest : List Nat)
    (h : w.validate_header samples indices = .ok rest) :
    w.extract_message_binary samples indices
      = match extract_until_nul rest with
        | some r => .ok (if utf8_valid r then r else [])
        | none => .error .FailedToReceiveMessage := by
  unfold WAV16.extract_message_binary
  rw [h]

theorem first_zero_ge_of_take (l : List Nat) (k z : Nat)
    (hk : (l.take k).length = k) (hpre : ∀ b ∈ l.take k, b ≠ 0)
    (hz : first_zero l = some z) : k ≤ z := by
  have hsplit : l.take k ++ l.drop k = l := List.take_append_drop k l
  rw [← hsplit, first_zero_append _ _ hpre, hk] at hz
  rcases hfz : first_zero (l.drop k) with _ | z'
  · rw [hfz] at hz
    cases hz
  · rw [hfz] at hz
    simp only [Option.map_some', Option.some.injEq] at hz
    omega

/-- Bits at or above the depth window of every sample survive the hide
loop. -/
theorem hide_loop_testBit (w : WAV16) (hD16 : w.lsb_deep ≤ 16) :
    ∀ (idxs samples bits : List Nat), (∀ s ∈ samples, s < 2 ^ 16) →
      (∀ x ∈ bits, x ≤ 1) → ∀ j k, w.lsb_deep ≤ k →
        ((hide_loop w.lsb_deep (not16 w.get_mask) samples idxs bits).getD j 0).testBit k
          = (samples.getD j 0).testBit k := by
  intro idxs
  induction idxs with
  | nil =>
    intro samples bits _ _ j k _
    rfl
  | cons i rest ih =>
    intro samples bits h16 hb j k hk
    have hv : (chunk_fill w.lsb_deep 0 bits).1 < 2 ^ w.lsb_deep :=
      chunk_fill_fst_lt _ bits hb
    have hsi : samples.getD i 0 < 2 ^ 16 := by
      by_cases hilen : i < samples.length
      · rw [List.getD_eq_getElem?_getD, List.getElem?_eq_getElem hilen]
        exact h16 _ (List.getElem_mem hilen)
      · rw [List.getD_eq_getElem?_getD, List.getElem?_eq_none (by omega)]
        norm_num
    have hw : ∀ s v, s < 2 ^ 16 → v < 2 ^ w.lsb_deep →
        ((s &&& not16 w.get_mask) ||| v).testBit k = s.testBit k := by
      intro s v hs hvv
      rw [get_mask_eq w hD16]
      exact testBit_write_high s v w.lsb_deep k hs hk hvv
    have hset :
        ((samples.set i ((samples.getD i 0 &&& not16 w.get_mask)
            ||| (chunk_fill w.lsb_deep 0 bits).1)).getD j 0).testBit k
          = (samples.getD j 0).testBit k := by
      by_cases hji : j = i
      · subst hji
        by_cases hjlen : j < samples.length
        · rw [getD_set_self samples j hjlen]
          exact hw _ _ hsi hv
        · rw [List.set_eq_of_length_le (by omega)]
      · rw [getD_set_ne samples i j (fun h' => hji h'.symm) _ 0]
    rw [hide_loop]
    by_cases h : bits.length < w.lsb_deep
    · simp only [h, if_true]
      exact hset
    · simp only [h, if_false]
      have hwlt : (samples.getD i 0 &&& not16 w.get_mask)
          ||| (chunk_fill w.lsb_deep 0 bits).1 < 2 ^ 16 :=
        write_lt_two_pow _ _ _ (get_mask_lt w)
          (Nat.lt_of_lt_of_le hv (Nat.pow_le_pow_right (by norm_num) hD16))
      have h16' : ∀ s ∈ samples.set i ((samples.getD i 0 &&& not16 w.get_mask)
          ||| (chunk_fill w.lsb_deep 0 bits).1), s < 2 ^ 16 := by
        intro s hs
        rcases List.mem_or_eq_of_mem_set hs with hmem | heq
        · exact h16 s hmem
        · rw [heq]
          exact hwlt
      rw [chunk_fill_snd]
      rw [ih _ (bits.drop w.lsb_deep) h16'
        (fun x hx => hb x (List.drop_subset _ bits hx)) j k hk]
      exact hset

theorem is_enough_samples_eq (w : WAV16) (msg_len samples_len : Nat) :
    w.is_enough_samples msg_len samples_len
      = if msg_len * 8 > samples_len * w.lsb_deep * w.max_occupancy / 100
        then .error (.NotEnoughSamples
            (msg_len * 8 * 100 / w.max_occupancy / w.lsb_deep + 1))
        else .ok () := rfl

theorem hide_message_binary_eq (w : WAV16) (samples message indices : List Nat) :
    w.hide_message_binary samples message indices
      = match w.is_enough_samples (w.header.length + message.length + 1)
          samples.length with
        | .error e => (.error e, samples)
        | .ok _ => (.ok (), hide_loop w.lsb_deep (not16 w.get_mask) samples indices
            (payload_bits w.header message)) := rfl

theorem clear_secret_message_binary_eq (w : WAV16) (samples indices : List Nat) :
    w.clear_secret_message_binary samples indices
      = match w.validate_header samples indices with
        | .error e => (.error e, samples)
        | .ok _ => clear_loop w samples indices 0 0 := rfl

/-! ### Claim theorems -/

/-- Claim C2: `hide_message_binary` returns `Err(NotEnoughSamples(_))` if
and only if the payload bit count `8·(|H|+|m|+1)` exceeds the usable bits
`⌊N·D·O/100⌋`, and whenever it returns an error the sample buffer is
unchanged: the capacity check runs before any mutation. -/
theorem capacity_error_iff (w : WAV16) (samples message indices : List Nat)
    (hD1 : 1 ≤ w.lsb_deep) (hO1 : 1 ≤ w.max_occupancy) :
    ((∃ r, (w.hide_message_binary samples message indices).1
        = .error (.NotEnoughSamples r))
      ↔ 8 * (w.header.length + message.length + 1)
          > samples.length * w.lsb_deep * w.max_occupancy / 100)
    ∧ (∀ e, (w.hide_message_binary samples message indices).1 = .error e →
        (w.hide_message_binary samples message indices).2 = samples) := by
  by_cases h : (w.header.length + message.length + 1) * 8
      > samples.length * w.lsb_deep * w.max_occupancy / 100
  · have heq : w.hide_message_binary samples message indices
        = (.error (.NotEnoughSamples
            ((w.header.length + message.length + 1) * 8 * 100 / w.max_occupancy
              / w.lsb_deep + 1)), samples) := by
      rw [hide_message_binary_eq, is_enough_samples_eq, if_pos h]
    rw [heq]
    exact ⟨⟨fun _ => by omega, fun _ => ⟨_, rfl⟩⟩, fun e _ => rfl⟩
  · have heq : w.hide_message_binary samples message indices
        = (.ok (), hide_loop w.lsb_deep (not16 w.get_mask) samples indices
            (payload_bits w.header message)) := by
      rw [hide_message_binary_eq, is_enough_samples_eq, if_neg h]
    rw [heq]
    refine ⟨⟨?_, ?_⟩, ?_⟩
    · rintro ⟨r, hr⟩
      cases hr
    · intro hc
      exfalso
      omega
    · intro e he
      cases he

/-- Witness for `capacity_error_iff` at depth 1, occupancy 70, header "h",
empty message and a single zero sample. -/
theorem capacity_error_iff_witness :
    ((∃ r, (WAV16.hide_message_binary ⟨1, [104], 70⟩ [0] [] []).1
        = .error (.NotEnoughSamples r))
      ↔ 8 * ((1 : Nat) + 0 + 1) > 1 * 1 * 70 / 100)
    ∧ (∀ e, (WAV16.hide_message_binary ⟨1, [104], 70⟩ [0] [] []).1 = .error e →
        (WAV16.hide_message_binary ⟨1, [104], 70⟩ [0] [] []).2 = [0]) :=
  capacity_error_iff ⟨1, [104], 70⟩ [0] [] [] (by decide) (by decide)

/-- Claim C3 as stated is false: with `D = 1`, `O = 70`, header "h" and an
empty message (`B = 2` payload bytes) on a 1-sample buffer, the code
reports `required = ⌊1600/70⌋ + 1 = 23`, while the claimed value
`⌈1600/70⌉ + 1` is `24`. -/
theorem required_value_as_stated_false :
    (WAV16.hide_message_binary ⟨1, [104], 70⟩ [0] [] []).1
        = .error (.NotEnoughSamples 23)
      ∧ 23 ≠ (2 * 8 * 100 + (70 * 1 - 1)) / (70 * 1) + 1 := by
  constructor
  · rfl
  · decide

/-- Claim C3 amended: on a capacity failure the error carries
`⌊B·8·100/O⌋/D + 1`, which equals `⌊B·8·100/(O·D)⌋ + 1` — the floor of the
quotient plus one, not the ceiling plus one. -/
theorem required_value_amended (w : WAV16) (samples message indices : List Nat)
    (hD1 : 1 ≤ w.lsb_deep) (hO1 : 1 ≤ w.max_occupancy)
    (h : 8 * (w.header.length + message.length + 1)
      > samples.length * w.lsb_deep * w.max_occupancy / 100) :
    (w.hide_message_binary samples message indices).1
      = .error (.NotEnoughSamples
          ((w.header.length + message.length + 1) * 8 * 100
            / (w.max_occupancy * w.lsb_deep) + 1)) := by
  rw [hide_message_binary_eq, is_enough_samples_eq, if_pos (by omega),
    Nat.div_div_eq_div_mul]

/-- Witness for `required_value_amended` on the concrete inputs of the
counterexample: the reported value is `1600 / 70 + 1 = 23`. -/
theorem required_value_amended_witness :
    (WAV16.hide_message_binary ⟨1, [104], 70⟩ [0] [] []).1
      = .error (.NotEnoughSamples ((1 + 0 + 1) * 8 * 100 / (70 * 1) + 1)) :=
  required_value_amended ⟨1, [104], 70⟩ [0] [] [] (by decide) (by decide) (by decide)

/-- Claim C4: `extract_message_binary` returns `Err(IncorrectPassword)`
exactly when the first `|H|` bytes decoded along the password's index
stream differ from the header; no other error kind reports a header
mismatch, so a buffer with no embedded message and one embedded under a
different password are rejected identically. -/
theorem incorrect_password_iff (w : WAV16) (samples indices : List Nat)
    (hH : w.header ≠ []) :
    w.extract_message_binary samples indices = .error .IncorrectPassword
      ↔ (w.decoded_bytes samples indices).take w.header.length ≠ w.header := by
  by_cases hcmp : (w.decoded_bytes samples indices).take w.header.length = w.header
  · have hv : w.validate_header samples indices
        = .ok ((w.decoded_bytes samples indices).drop w.header.length) := by
      rw [validate_header_eq w samples indices hH, if_pos hcmp]
    rw [extract_eq_of_validate_ok w samples indices _ hv]
    rcases hx : extract_until_nul
        ((w.decoded_bytes samples indices).drop w.header.length) with _ | r
    · simp [hcmp]
    · simp [hcmp]
  · have hv : w.validate_header samples indices = .error .IncorrectPassword := by
      rw [validate_header_eq w samples indices hH, if_neg hcmp]
    have hext : w.extract_message_binary samples indices
        = .error .IncorrectPassword := by
      unfold WAV16.extract_message_binary
      rw [hv]
    rw [hext]
    simp [hcmp]

/-- Witness for `incorrect_password_iff`: an all-zero buffer with header
"h" is rejected as `IncorrectPassword`. -/
theorem incorrect_password_iff_witness :
    WAV16.extract_message_binary ⟨1, [104], 70⟩ [0, 0, 0, 0, 0, 0, 0, 0] [0, 1, 2, 3, 4]
        = .error .IncorrectPassword
      ↔ (WAV16.decoded_bytes ⟨1, [104], 70⟩ [0, 0, 0, 0, 0, 0, 0, 0]
          [0, 1, 2, 3, 4]).take 1 ≠ [104] :=
  incorrect_password_iff ⟨1, [104], 70⟩ [0, 0, 0, 0, 0, 0, 0, 0] [0, 1, 2, 3, 4]
    (by decide)

/-- Claim C7: once header validation succeeds, `extract_message_binary`
returns the decoded bytes strictly before the first `0x00`, as a UTF-8
string with the empty string substituted if those bytes are invalid UTF-8;
if the stream is exhausted before any `0x00` is decoded it returns
`Err(FailedToReceiveMessage)`. -/
theorem extract_after_header (w : WAV16) (samples indices rest : List Nat)
    (h : w.validate_header samples indices = .ok rest) :
    (∀ pre post, rest = pre ++ 0 :: post → (∀ b ∈ pre, b ≠ 0) →
        w.extract_message_binary samples indices
          = .ok (if utf8_valid pre then pre else []))
      ∧ ((∀ b ∈ rest, b ≠ 0) →
        w.extract_message_binary samples indices = .error .FailedToReceiveMessage) := by
  have heq := extract_eq_of_validate_ok w samples indices rest h
  constructor
  · intro pre post hsplit hpre
    rw [heq, hsplit, extract_until_nul_split pre hpre post]
  · intro hall
    rw [heq, extract_until_nul_none rest hall]

/-- Witness for `extract_after_header`: both branches on a depth-8 buffer
with header "h"; the payload byte 120 = "x" precedes the terminator. -/
theorem extract_after_header_witness :
    WAV16.extract_message_binary ⟨8, [104], 100⟩ [104, 120, 0] [0, 1, 2]
      = .ok (if utf8_valid [120] then [120] else []) :=
  (extract_after_header ⟨8, [104], 100⟩ [104, 120, 0] [0, 1, 2] [120, 0]
      (by decide)).1 [120] [] (by decide) (by decide)

/-- Claim C8: the byte-buffer read path of the codec performs no
bits-per-sample check — `read_samples_from_byte` accepts whatever hound
parses, 8-bit specs included — while the file path (`validate_file`)
rejects anything that is not 16-bit. The claim that both paths reject
non-16-bit input before producing samples is contradicted by the first
conjunct. -/
theorem byte_path_no_bits_check :
    read_samples_from_byte (.ok ⟨1, 44100, 8⟩ [0, 0]) = .ok ([0, 0], ⟨1, 44100, 8⟩)
      ∧ validate_file (some ⟨1, 44100, 8⟩)
          = .error (.InvalidFile ("Only 16-bit WAV file supported")) := by
  constructor
  · rfl
  · rfl

/-- Claim C1 as stated is false: with depth 16, occupancy 50, header "h"
and a 3-sample zero buffer, the one-byte message "x" satisfies the claim's
capacity bound (capacity is `⌊⌊3·16·50/100⌋/8⌋ = 3` bytes, so
`|m| = 1 ≤ 3 − 1 − 1`) and hide succeeds, but the index stream yields only
`⌊3·50/100⌋ = 1` index — 16 writable bits for the 24-bit payload — so
extracting with the same password fails instead of returning "x". -/
theorem round_trip_as_stated_false :
    ValidStream 3 50 [0]
      ∧ (1 : Nat) ≤ 3 * 16 * 50 / 100 / 8 - 1 - 1
      ∧ (WAV16.hide_message_binary ⟨16, [104], 50⟩ [0, 0, 0] [120] [0]).1 = .ok ()
      ∧ WAV16.extract_message_binary ⟨16, [104], 50⟩
          (WAV16.hide_message_binary ⟨16, [104], 50⟩ [0, 0, 0] [120] [0]).2 [0]
          = .error .FailedToReceiveMessage := by
  refine ⟨by decide, by decide, by decide, by decide⟩

/-- Claim C1 amended: the round trip `extract(hide(s,m,p),p) = Ok(m)` holds
for every depth `D ∈ [1,16]`, header and message byte lists (header
non-empty, bytes below 256), provided the message has no `0x00` byte and
is valid UTF-8, and the payload fits the bits the index stream actually
offers: `8·(|H|+|m|+1) ≤ D·⌊N·O/100⌋` — a bound on the stream's
`⌊N·O/100⌋` indices, strictly stronger than the `⌊N·D·O/100⌋` capacity
check of the code. -/
theorem round_trip_amended (w : WAV16) (m samples indices : List Nat)
    (hD1 : 1 ≤ w.lsb_deep) (hD16 : w.lsb_deep ≤ 16) (hH : w.header ≠ [])
    (hHb : ∀ b ∈ w.header, b < 256) (hmb : ∀ b ∈ m, b < 256)
    (hm0 : ∀ b ∈ m, b ≠ 0) (hmu : utf8_valid m = true)
    (hstream : ValidStream samples.length w.max_occupancy indices)
    (hfit : 8 * (w.header.length + m.length + 1) ≤ w.lsb_deep * indices.length) :
    (w.hide_message_binary samples m indices).1 = .ok ()
      ∧ w.extract_message_binary (w.hide_message_binary samples m indices).2 indices
          = .ok m := by
  obtain ⟨hnd, hrange, hlen⟩ := hstream
  have hcap : ¬ ((w.header.length + m.length + 1) * 8
      > samples.length * w.lsb_deep * w.max_occupancy / 100) := by
    have h1 : w.lsb_deep * (samples.length * w.max_occupancy / 100)
        ≤ w.lsb_deep * (samples.length * w.max_occupancy) / 100 :=
      Nat.mul_div_le_mul_div_assoc _ _ _
    have h2 : w.lsb_deep * (samples.length * w.max_occupancy)
        = samples.length * w.lsb_deep * w.max_occupancy := by ring
    rw [h2] at h1
    rw [hlen] at hfit
    omega
  have heq : w.hide_message_binary samples m indices
      = (.ok (), hide_loop w.lsb_deep (not16 w.get_mask) samples indices
          (payload_bits w.header m)) := by
    rw [hide_message_binary_eq, is_enough_samples_eq, if_neg hcap]
  refine ⟨by rw [heq], ?_⟩
  obtain ⟨suffix, hread⟩ := hide_loop_read w hD16 indices samples
    (payload_bits w.header m) hnd hrange (payload_bits_le_one _ _)
    (by rw [payload_bits_length]; omega)
  rw [heq]
  have hb256 : ∀ b ∈ (w.header ++ m) ++ [0], b < 256 := by
    intro b hb
    rcases List.mem_append.1 hb with hb1 | hb1
    · rcases List.mem_append.1 hb1 with hb2 | hb2
      · exact hHb b hb2
      · exact hmb b hb2
    · rw [List.mem_singleton.1 hb1]
      omega
  have hdec : w.decoded_bytes
      (hide_loop w.lsb_deep (not16 w.get_mask) samples indices
        (payload_bits w.header m)) indices
      = w.header ++ (m ++ 0 :: bits_to_bytes 0 0 suffix) := by
    unfold WAV16.decoded_bytes
    rw [hread]
    unfold payload_bits
    rw [bits_to_bytes_bytes ((w.header ++ m) ++ [0]) hb256 suffix]
    simp [List.append_assoc]
  have htake : (w.decoded_bytes
      (hide_loop w.lsb_deep (not16 w.get_mask) samples indices
        (payload_bits w.header m)) indices).take w.header.length = w.header := by
    rw [hdec]
    exact List.take_left _ _
  have hdrop : (w.decoded_bytes
      (hide_loop w.lsb_deep (not16 w.get_mask) samples indices
        (payload_bits w.header m)) indices).drop w.header.length
      = m ++ 0 :: bits_to_bytes 0 0 suffix := by
    rw [hdec]
    exact List.drop_left _ _
  have hv : w.validate_header
      (hide_loop w.lsb_deep (not16 w.get_mask) samples indices
        (payload_bits w.header m)) indices
      = .ok (m ++ 0 :: bits_to_bytes 0 0 suffix) := by
    rw [validate_header_eq w _ indices hH, if_pos htake, hdrop]
  rw [extract_eq_of_validate_ok w _ indices _ hv,
    extract_until_nul_split m hm0 (bits_to_bytes 0 0 suffix)]
  simp [hmu]

/-- Witness for `round_trip_amended`: hiding the byte "A" with header "h"
at depth 8 in four zero samples and extracting along the same stream
returns exactly "A". -/
theorem round_trip_amended_witness :
    (WAV16.hide_message_binary ⟨8, [104], 100⟩ [0, 0, 0, 0] [65] [0, 1, 2, 3]).1
        = .ok ()
      ∧ WAV16.extract_message_binary ⟨8, [104], 100⟩
          (WAV16.hide_message_binary ⟨8, [104], 100⟩ [0, 0, 0, 0] [65] [0, 1, 2, 3]).2
          [0, 1, 2, 3] = .ok [65] :=
  round_trip_amended ⟨8, [104], 100⟩ [65] [0, 0, 0, 0] [0, 1, 2, 3]
    (by decide) (by decide) (by decide) (by decide) (by decide) (by decide)
    (by decide) (by decide) (by decide)

/-- Claim C5 as stated is false: hide "x" (depth 8, occupancy 50, header
"h") into a 6-sample buffer under the stream `[0,1,2]` of password `p`,
clear with `p`, then extract with a password `p2` whose stream is
`[3,4,5]`: the original samples at positions 3..5 happen to decode as
header plus terminator, so the extraction returns `Ok("")` instead of
`Err(IncorrectPassword)`. -/
theorem clear_extract_any_password_false :
    ValidStream 6 50 [0, 1, 2] ∧ ValidStream 6 50 [3, 4, 5]
      ∧ (WAV16.hide_message_binary ⟨8, [104], 50⟩ [0, 0, 0, 104, 0, 0] [120]
          [0, 1, 2]).1 = .ok ()
      ∧ (WAV16.clear_secret_message_binary ⟨8, [104], 50⟩
          (WAV16.hide_message_binary ⟨8, [104], 50⟩ [0, 0, 0, 104, 0, 0] [120]
            [0, 1, 2]).2 [0, 1, 2]).1 = .ok ()
      ∧ WAV16.extract_message_binary ⟨8, [104], 50⟩
          (WAV16.clear_secret_message_binary ⟨8, [104], 50⟩
            (WAV16.hide_message_binary ⟨8, [104], 50⟩ [0, 0, 0, 104, 0, 0] [120]
              [0, 1, 2]).2 [0, 1, 2]).2 [3, 4, 5] = .ok [] := by
  refine ⟨by decide, by decide, by decide, by decide, by decide⟩

/-- Claim C5 amended: after `clear(buf, p)` returns `Ok`, extracting with
the *same* password `p` fails with `IncorrectPassword` (the header being
non-empty with no zero byte); for a different password the result can be
any outcome, including success, as the counterexample shows. -/
theorem clear_extract_same_password (w : WAV16) (samples indices : List Nat)
    (hD1 : 1 ≤ w.lsb_deep) (hD16 : w.lsb_deep ≤ 16)
    (hH : w.header ≠ []) (hH0 : ∀ b ∈ w.header, b ≠ 0)
    (hnd : indices.Nodup) (hrange : ∀ i ∈ indices, i < samples.length)
    (hok : (w.clear_secret_message_binary samples indices).1 = .ok ()) :
    w.extract_message_binary (w.clear_secret_message_binary samples indices).2 indices
      = .error .IncorrectPassword := by
  rcases hv : w.validate_header samples indices with e | rest0
  · have hbad : (w.clear_secret_message_binary samples indices).1 = .error e := by
      rw [clear_secret_message_binary_eq, hv]
    rw [hbad] at hok
    cases hok
  have hclear : w.clear_secret_message_binary samples indices
      = clear_loop w samples indices 0 0 := by
    rw [clear_secret_message_binary_eq, hv]
  have htake : (w.decoded_bytes samples indices).take w.header.length = w.header := by
    rw [validate_header_eq w samples indices hH] at hv
    by_cases hc : (w.decoded_bytes samples indices).take w.header.length = w.header
    · exact hc
    · rw [if_neg hc] at hv
      cases hv
  have hSB := scan_zero_bytes (w.read_bits samples indices).length
    (w.read_bits samples indices) (Nat.le_refl _)
  have hCL := clear_loop_spec w hD1 indices samples 0 0 hnd hrange
  rcases hfz : first_zero (w.decoded_bytes samples indices) with _ | z
  · have hfail := hCL.2 (hSB.2 hfz)
    rw [hclear, hfail] at hok
    cases hok
  have hscan := hSB.1 z hfz
  obtain ⟨hloop, hn1, hnle⟩ := hCL.1 (8 * (z + 1)) hscan
  have hHlen : ((w.decoded_bytes samples indices).take w.header.length).length
      = w.header.length := by
    rw [htake]
  have hzH : w.header.length ≤ z :=
    first_zero_ge_of_take _ _ _ hHlen (by rw [htake]; exact hH0) hfz
  have hdm := Nat.div_add_mod (8 * (z + 1) + (w.lsb_deep - 1)) w.lsb_deep
  have hmod : (8 * (z + 1) + (w.lsb_deep - 1)) % w.lsb_deep < w.lsb_deep :=
    Nat.mod_lt _ (by omega)
  have htD : 8 * (z + 1)
      ≤ w.lsb_deep * ((8 * (z + 1) + (w.lsb_deep - 1)) / w.lsb_deep) := by
    omega
  have htle : (8 * (z + 1) + (w.lsb_deep - 1)) / w.lsb_deep ≤ indices.length := by
    by_contra hcon
    push_neg at hcon
    have h2 : w.lsb_deep * (indices.length + 1)
        ≤ w.lsb_deep * ((8 * (z + 1) + (w.lsb_deep - 1)) / w.lsb_deep) :=
      Nat.mul_le_mul_left w.lsb_deep (by omega)
    have h3 : w.lsb_deep * (indices.length + 1)
        = w.lsb_deep * indices.length + w.lsb_deep := by ring
    omega
  rw [hclear, hloop]
  show w.extract_message_binary
      (zero_low w samples
        (indices.take ((8 * (z + 1) + (w.lsb_deep - 1)) / w.lsb_deep))) indices
    = .error .IncorrectPassword
  have hndt : (indices.take ((8 * (z + 1) + (w.lsb_deep - 1)) / w.lsb_deep)).Nodup :=
    (List.take_sublist _ indices).nodup hnd
  have hlent : (indices.take ((8 * (z + 1) + (w.lsb_deep - 1)) / w.lsb_deep)).length
      = (8 * (z + 1) + (w.lsb_deep - 1)) / w.lsb_deep := by
    rw [List.length_take]
    omega
  have hzeroed : ∀ i ∈ indices.take ((8 * (z + 1) + (w.lsb_deep - 1)) / w.lsb_deep),
      w.sample_bits
        ((zero_low w samples
          (indices.take ((8 * (z + 1) + (w.lsb_deep - 1)) / w.lsb_deep))).getD i 0)
        = List.replicate w.lsb_deep 0 := by
    intro i hi
    have hmem : i ∈ indices := List.take_subset _ indices hi
    rw [zero_low_getD_mem w _ samples i hndt hi (hrange i hmem)]
    exact sample_bits_zeroed w hD16 _
  have hreadt : w.read_bits
      (zero_low w samples
        (indices.take ((8 * (z + 1) + (w.lsb_deep - 1)) / w.lsb_deep)))
      (indices.take ((8 * (z + 1) + (w.lsb_deep - 1)) / w.lsb_deep))
      = List.replicate
          (w.lsb_deep * ((8 * (z + 1) + (w.lsb_deep - 1)) / w.lsb_deep)) 0 := by
    rw [read_bits_all_zeroed w _ _ hzeroed, hlent]
  have hsplitR : ∀ (R : List Nat), w.read_bits R indices
      = w.read_bits R (indices.take ((8 * (z + 1) + (w.lsb_deep - 1)) / w.lsb_deep))
        ++ w.read_bits R
            (indices.drop ((8 * (z + 1) + (w.lsb_deep - 1)) / w.lsb_deep)) := by
    intro R
    conv_lhs =>
      rw [← List.take_append_drop ((8 * (z + 1) + (w.lsb_deep - 1)) / w.lsb_deep)
        indices]
    rw [read_bits_append]
  have hreads : w.read_bits
      (zero_low w samples
        (indices.take ((8 * (z + 1) + (w.lsb_deep - 1)) / w.lsb_deep))) indices
      = List.replicate
          (w.lsb_deep * ((8 * (z + 1) + (w.lsb_deep - 1)) / w.lsb_deep)) 0
        ++ w.read_bits
            (zero_low w samples
              (indices.take ((8 * (z + 1) + (w.lsb_deep - 1)) / w.lsb_deep)))
            (indices.drop ((8 * (z + 1) + (w.lsb_deep - 1)) / w.lsb_deep)) := by
    rw [hsplitR, hreadt]
  have h8H : 8 * w.header.length
      ≤ w.lsb_deep * ((8 * (z + 1) + (w.lsb_deep - 1)) / w.lsb_deep) := by
    omega
  have hrepl : List.replicate
      (w.lsb_deep * ((8 * (z + 1) + (w.lsb_deep - 1)) / w.lsb_deep)) (0 : Nat)
      = List.replicate (8 * w.header.length) 0
        ++ List.replicate
            (w.lsb_deep * ((8 * (z + 1) + (w.lsb_deep - 1)) / w.lsb_deep)
              - 8 * w.header.length) 0 := by
    rw [← List.replicate_add]
    congr 1
    omega
  have hdecR : w.decoded_bytes
      (zero_low w samples
        (indices.take ((8 * (z + 1) + (w.lsb_deep - 1)) / w.lsb_deep))) indices
      = List.replicate w.header.length 0
        ++ bits_to_bytes 0 0
            (List.replicate
              (w.lsb_deep * ((8 * (z + 1) + (w.lsb_deep - 1)) / w.lsb_deep)
                - 8 * w.header.length) 0
              ++ w.read_bits
                  (zero_low w samples
                    (indices.take ((8 * (z + 1) + (w.lsb_deep - 1)) / w.lsb_deep)))
                  (indices.drop ((8 * (z + 1) + (w.lsb_deep - 1)) / w.lsb_deep))) := by
    unfold WAV16.decoded_bytes
    rw [hreads, hrepl, List.append_assoc, ← zero_bytes_flat w.header.length,
      bits_to_bytes_bytes (List.replicate w.header.length 0)
        (fun b hb => by rw [List.eq_of_mem_replicate hb]; omega)]
  have hne : (w.decoded_bytes
      (zero_low w samples
        (indices.take ((8 * (z + 1) + (w.lsb_deep - 1)) / w.lsb_deep)))
      indices).take w.header.length ≠ w.header := by
    rw [hdecR, List.take_left' (by rw [List.length_replicate])]
    intro heq
    obtain ⟨b, hb⟩ := List.exists_mem_of_ne_nil w.header hH
    have hb' : b ∈ List.replicate w.header.length (0 : Nat) := by
      rw [heq]
      exact hb
    exact hH0 b hb (List.eq_of_mem_replicate hb')
  have hvR : w.validate_header
      (zero_low w samples
        (indices.take ((8 * (z + 1) + (w.lsb_deep - 1)) / w.lsb_deep))) indices
      = .error .IncorrectPassword := by
    rw [validate_header_eq w _ indices hH, if_neg hne]
  unfold WAV16.extract_message_binary
  rw [hvR]

/-- Witness for `clear_extract_same_password`: after clearing the hidden
"x" with the very stream that hid it, extraction with that stream is
rejected. -/
theorem clear_extract_same_password_witness :
    WAV16.extract_message_binary ⟨8, [104], 50⟩
      (WAV16.clear_secret_message_binary ⟨8, [104], 50⟩
        (WAV16.hide_message_binary ⟨8, [104], 50⟩ [0, 0, 0, 104, 0, 0] [120]
          [0, 1, 2]).2 [0, 1, 2]).2 [0, 1, 2] = .error .IncorrectPassword :=
  clear_extract_same_password ⟨8, [104], 50⟩
    (WAV16.hide_message_binary ⟨8, [104], 50⟩ [0, 0, 0, 104, 0, 0] [120] [0, 1, 2]).2
    [0, 1, 2] (by decide) (by decide) (by decide) (by decide) (by decide) (by decide)
    (by decide)

/-- Claim C6 as stated is false: with header `[5]`, depth 8, occupancy 100
and buffer `[5, 0, 7]`, header validation succeeds and clear returns `Ok`,
yet index 2 — yielded by the stream — still carries low bits `7`: the loop
stopped at the zero byte decoded at index 1 instead of running to stream
exhaustion. -/
theorem clear_runs_to_exhaustion_false :
    ValidStream 3 100 [0, 1, 2]
      ∧ (WAV16.clear_secret_message_binary ⟨8, [5], 100⟩ [5, 0, 7] [0, 1, 2]).1
          = .ok ()
      ∧ ((WAV16.clear_secret_message_binary ⟨8, [5], 100⟩ [5, 0, 7] [0, 1, 2]).2).getD
            2 0 &&& WAV16.get_mask ⟨8, [5], 100⟩ ≠ 0
      ∧ 2 ∈ [0, 1, 2] := by
  refine ⟨by decide, by decide, by decide, by decide⟩

/-- Claim C6 amended: after successful header validation,
`clear_secret_message_binary` zeroes the low-depth bits of exactly the
samples visited up to and including the one in which the first full zero
byte of the re-decoded stream completes — `⌈8·(z+1)/D⌉` samples for a
first zero at byte index `z` — and then returns `Ok` at once; only when no
zero byte ever completes does the loop run to stream exhaustion, zeroing
every visited sample and returning `Err(FailedToReceiveMessage)`. -/
theorem clear_stops_at_first_zero_byte (w : WAV16) (samples indices rest : List Nat)
    (hD1 : 1 ≤ w.lsb_deep) (hnd : indices.Nodup)
    (hrange : ∀ i ∈ indices, i < samples.length)
    (hv : w.validate_header samples indices = .ok rest) :
    (∀ z, first_zero (w.decoded_bytes samples indices) = some z →
        w.clear_secret_message_binary samples indices
          = (.ok (), zero_low w samples
              (indices.take ((8 * (z + 1) + (w.lsb_deep - 1)) / w.lsb_deep))))
      ∧ (first_zero (w.decoded_bytes samples indices) = none →
        w.clear_secret_message_binary samples indices
          = (.error .FailedToReceiveMessage, zero_low w samples indices)) := by
  have hclear : w.clear_secret_message_binary samples indices
      = clear_loop w samples indices 0 0 := by
    rw [clear_secret_message_binary_eq, hv]
  have hSB := scan_zero_bytes (w.read_bits samples indices).length
    (w.read_bits samples indices) (Nat.le_refl _)
  have hCL := clear_loop_spec w hD1 indices samples 0 0 hnd hrange
  constructor
  · intro z hz
    obtain ⟨hloop, _, _⟩ := hCL.1 (8 * (z + 1)) (hSB.1 z hz)
    rw [hclear, hloop]
  · intro hz
    rw [hclear, hCL.2 (hSB.2 hz)]

/-- Witness for `clear_stops_at_first_zero_byte` on the counterexample's
buffer: the first zero byte is at index 1, so exactly
`⌈16/8⌉ = 2` of the three stream samples are zeroed. -/
theorem clear_stops_at_first_zero_byte_witness :
    WAV16.clear_secret_message_binary ⟨8, [5], 100⟩ [5, 0, 7] [0, 1, 2]
      = (.ok (), zero_low ⟨8, [5], 100⟩ [5, 0, 7]
          ([0, 1, 2].take ((8 * (1 + 1) + (8 - 1)) / 8))) :=
  (clear_stops_at_first_zero_byte ⟨8, [5], 100⟩ [5, 0, 7] [0, 1, 2] [0, 7]
    (by decide) (by decide) (by decide) (by decide)).1 1 (by decide)

/-- Claim C9: a `hide_message_binary` call preserves the buffer length,
leaves every sample outside the visited prefix of the index stream (the
indices yielded before the loop stops) completely untouched, and preserves
every bit at or above the depth-`D` window of every sample. -/
theorem hide_frame_condition (w : WAV16) (samples message indices : List Nat)
    (hD1 : 1 ≤ w.lsb_deep) (hD16 : w.lsb_deep ≤ 16)
    (h16 : ∀ s ∈ samples, s < 2 ^ 16) :
    ((w.hide_message_binary samples message indices).2).length = samples.length
      ∧ (∀ j, j ∉ indices.take
            (hide_steps w.lsb_deep (payload_bits w.header message).length
              indices.length) →
          ((w.hide_message_binary samples message indices).2).getD j 0
            = samples.getD j 0)
      ∧ (∀ j k, w.lsb_deep ≤ k →
          (((w.hide_message_binary samples message indices).2).getD j 0).testBit k
            = (samples.getD j 0).testBit k) := by
  rw [hide_message_binary_eq, is_enough_samples_eq]
  by_cases h : (w.header.length + message.length + 1) * 8
      > samples.length * w.lsb_deep * w.max_occupancy / 100
  · rw [if_pos h]
    exact ⟨rfl, fun j _ => rfl, fun j k _ => rfl⟩
  · rw [if_neg h]
    refine ⟨hide_loop_length _ _ _ _ _, ?_, ?_⟩
    · intro j hj
      exact hide_loop_getD_beyond w.lsb_deep (not16 w.get_mask) (by omega) indices
        samples (payload_bits w.header message) j 0 hj
    · intro j k hk
      exact hide_loop_testBit w hD16 indices samples _ h16
        (payload_bits_le_one _ _) j k hk

/-- Witness for `hide_frame_condition`: hiding "A" at depth 8 in four zero
samples with a full stream. -/
theorem hide_frame_condition_witness :
    ((WAV16.hide_message_binary ⟨8, [104], 100⟩ [0, 0, 0, 0] [65] [0, 1, 2, 3]).2).length
        = 4
      ∧ (∀ j, j ∉ [0, 1, 2, 3].take
            (hide_steps 8 (payload_bits [104] [65]).length 4) →
          ((WAV16.hide_message_binary ⟨8, [104], 100⟩ [0, 0, 0, 0] [65]
              [0, 1, 2, 3]).2).getD j 0 = ([0, 0, 0, 0] : List Nat).getD j 0)
      ∧ (∀ j k, 8 ≤ k →
          (((WAV16.hide_message_binary ⟨8, [104], 100⟩ [0, 0, 0, 0] [65]
              [0, 1, 2, 3]).2).getD j 0).testBit k
            = (([0, 0, 0, 0] : List Nat).getD j 0).testBit k) :=
  hide_frame_condition ⟨8, [104], 100⟩ [0, 0, 0, 0] [65] [0, 1, 2, 3]
    (by decide) (by decide) (by decide)

/-- Claim C10: when header validation succeeds but the replayed stream
exhausts without ever completing a zero byte, `clear_secret_message_binary`
returns `Err(FailedToReceiveMessage)` with the low bits of every visited
sample already zeroed — the buffer is mutated despite the error — whereas
in the `IncorrectPassword` case the buffer is returned untouched. -/
theorem clear_failed_mutates (w : WAV16) (samples indices : List Nat)
    (hD1 : 1 ≤ w.lsb_deep) (hD16 : w.lsb_deep ≤ 16) (hH : w.header ≠ [])
    (hnd : indices.Nodup) (hrange : ∀ i ∈ indices, i < samples.length) :
    (∀ rest, w.validate_header samples indices = .ok rest →
        first_zero (w.decoded_bytes samples indices) = none →
        w.clear_secret_message_binary samples indices
            = (.error .FailedToReceiveMessage, zero_low w samples indices)
          ∧ zero_low w samples indices ≠ samples)
      ∧ (∀ e, w.validate_header samples indices = .error e →
        w.clear_secret_message_binary samples indices = (.error e, samples)) := by
  constructor
  · intro rest hv hnone
    have hclear : w.clear_secret_message_binary samples indices
        = clear_loop w samples indices 0 0 := by
      rw [clear_secret_message_binary_eq, hv]
    have hscan := (scan_zero_bytes (w.read_bits samples indices).length
      (w.read_bits samples indices) (Nat.le_refl _)).2 hnone
    have hCL := (clear_loop_spec w hD1 indices samples 0 0 hnd hrange).2 hscan
    refine ⟨by rw [hclear, hCL], ?_⟩
    intro hzeq
    have hlow : ∀ i ∈ indices, samples.getD i 0 &&& w.get_mask = 0 := by
      intro i hi
      have h1 : (zero_low w samples indices).getD i 0
          = samples.getD i 0 &&& not16 w.get_mask :=
        zero_low_getD_mem w indices samples i hnd hi (hrange i hi)
      rw [hzeq] at h1
      calc samples.getD i 0 &&& w.get_mask
          = (samples.getD i 0 &&& not16 w.get_mask) &&& w.get_mask := by rw [← h1]
        _ = 0 := by
            rw [get_mask_eq w hD16]
            exact land_clear_mask _ _ hD16
    have hsb : ∀ i ∈ indices,
        w.sample_bits (samples.getD i 0) = List.replicate w.lsb_deep 0 :=
      fun i hi => sample_bits_eq_zero w _ (hlow i hi)
    have hrb := read_bits_all_zeroed w samples indices hsb
    have hz : ∀ b ∈ w.decoded_bytes samples indices, b = 0 := by
      intro b hb
      refine bits_to_bytes_zeros (w.read_bits samples indices) ?_ 0 b hb
      intro x hx
      rw [hrb] at hx
      exact List.eq_of_mem_replicate hx
    have htake : (w.decoded_bytes samples indices).take w.header.length
        = w.header := by
      rw [validate_header_eq w samples indices hH] at hv
      by_cases hc : (w.decoded_bytes samples indices).take w.header.length = w.header
      · exact hc
      · rw [if_neg hc] at hv
        cases hv
    rcases hdec : w.decoded_bytes samples indices with _ | ⟨b0, tl⟩
    · rw [hdec, List.take_nil] at htake
      exact hH htake.symm
    · have hb0 : b0 = 0 := by
        apply hz b0
        rw [hdec]
        exact List.mem_cons_self b0 tl
      rw [hdec, first_zero, if_pos hb0] at hnone
      cases hnone
  · intro e hv
    rw [clear_secret_message_binary_eq, hv]

/-- Witness for `clear_failed_mutates`: buffer `[5, 7]` with header `[5]`
validates, decodes no zero byte, and is zeroed despite the failure. -/
theorem clear_failed_mutates_witness :
    (WAV16.clear_secret_message_binary ⟨8, [5], 100⟩ [5, 7] [0, 1]
        = (.error .FailedToReceiveMessage, zero_low ⟨8, [5], 100⟩ [5, 7] [0, 1]))
      ∧ zero_low ⟨8, [5], 100⟩ [5, 7] [0, 1] ≠ [5, 7] :=
  (clear_failed_mutates ⟨8, [5], 100⟩ [5, 7] [0, 1] (by decide) (by decide)
    (by decide) (by decide) (by decide)).1 [7] (by decide) (by decide)

end StegoWave
